import Mathlib

/-!
Verification of the state and versioning engine of the `migrate` tool.

The Rust sources are shallowly embedded: strings are Lean `String`
(character lists; identical to Rust byte order on the ASCII data the tool
handles), machine integers are `Nat` with explicit `u32` bounds where the
code uses checked arithmetic, and fallible operations return
`Option`/`Except`.  File-system state (the history and baseline files) is
modelled by the file *contents* as a `String`; the external subprocess
runner (src/executor.rs, declared in lib.rs but whose body is an external
collaborator) is a parameter of the execution loop.

Timestamps: `chrono::DateTime<Utc>` is modelled at second precision as a
civil UTC date-time record.  `to_rfc3339` and `parse_from_rfc3339` are
modelled by `rfc3339Render` / `rfc3339Parse?`; the parser accepts exactly
the zero-offset forms (`Z`, `+00:00`, `-00:00`), which covers every
timestamp the program itself ever writes (chrono emits `+00:00` for Utc).
-/

/- ===== src/version.rs ===== -/

/-- Base36 alphabet (lowercase), `BASE36_CHARS` in src/version.rs. -/
def base36Chars : List Char :=
  "0123456789abcdefghijklmnopqrstuvwxyz".data

/-- Indexing `BASE36_CHARS[d]`: the base36 digit character for `d < 36`. -/
def base36Char (d : Nat) : Char := base36Chars.getD d '0'

/-- The `while n > 0` digit loop of `encode_base36`, producing the base36
digits of `n` least-significant first.  The structurally decreasing `fuel`
argument bounds the iteration count (`n` itself always suffices since the
loop divides by 36 each step). -/
def toDigitsRevAux : Nat → Nat → List Char
  | 0, _ => []
  | fuel + 1, n =>
    if n = 0 then [] else base36Char (n % 36) :: toDigitsRevAux fuel (n / 36)

/-- Base36 digits of `n`, least-significant first (empty for `n = 0`),
as accumulated by the loop in `encode_base36`. -/
def toDigitsRev (n : Nat) : List Char := toDigitsRevAux n n

/-- Function `encode_base36` from src/version.rs: zero case returns `width` zeros;
otherwise collect digits low-to-high, pad with `'0'` while shorter than
`width`, and reverse. -/
def encode_base36 (n : Nat) (width : Nat) : String :=
  if n = 0 then String.mk (List.replicate width '0')
  else
    String.mk (toDigitsRev n ++
      List.replicate (width - (toDigitsRev n).length) '0').reverse

/-- Constant `u32::MAX`, the overflow bound of the checked arithmetic in
`decode_base36`. -/
def u32Max : Nat := 4294967295

/-- The `width` lowest base36 digits of `n`, least-significant first,
zero-padded up to exactly `width` digits (a proof-side normal form for
`encode_base36` on in-range inputs). -/
def digitsLEPad : Nat → Nat → List Char
  | 0, _ => []
  | w + 1, n => base36Char (n % 36) :: digitsLEPad w (n / 36)

/-- The per-character digit match of `decode_base36`:
`'0'..='9'`, `'a'..='z'`, `'A'..='Z'`, otherwise `None`. -/
def base36DigitVal (c : Char) : Option Nat :=
  if 48 ≤ c.toNat ∧ c.toNat ≤ 57 then some (c.toNat - 48)
  else if 97 ≤ c.toNat ∧ c.toNat ≤ 122 then some (c.toNat - 97 + 10)
  else if 65 ≤ c.toNat ∧ c.toNat ≤ 90 then some (c.toNat - 65 + 10)
  else none

/-- The accumulator loop of `decode_base36`:
`result = result.checked_mul(36)?.checked_add(digit)?` with `u32`
overflow producing `None`. -/
def decodeGo : Nat → List Char → Option Nat
  | acc, [] => some acc
  | acc, c :: cs =>
    match base36DigitVal c with
    | none => none
    | some d =>
      if acc * 36 > u32Max then none
      else if acc * 36 + d > u32Max then none
      else decodeGo (acc * 36 + d) cs

/-- Function `decode_base36` from src/version.rs. -/
def decode_base36 (s : String) : Option Nat := decodeGo 0 s.data

/-- Function `generate_version` from src/version.rs, parameterised by the current
time `t` in seconds since the epoch 2020-01-01T00:00:00Z (the code reads
`Utc::now()`; `days = (today - epoch).num_days()` is `t / 86400`,
`minutes_since_midnight = seconds_from_midnight / 60`, `slot = minutes / 10`). -/
def generate_version (t : Nat) : String :=
  encode_base36 (t / 86400) 3 ++ encode_base36 (t % 86400 / 60 / 10) 2

/-- Function `is_valid_version` from src/version.rs: length 5, all ASCII
alphanumeric. -/
def is_valid_version (s : String) : Bool :=
  s.length == 5 && s.data.all Char.isAlphanum

/- ===== chrono timestamps (external collaborator, modelled) ===== -/

/-- A `chrono::DateTime<Utc>` at second precision: a civil UTC date-time. -/
structure DateTimeUtc where
  year : Nat
  month : Nat
  day : Nat
  hour : Nat
  minute : Nat
  second : Nat
deriving DecidableEq

/-- Gregorian leap year. -/
def isLeapYear (y : Nat) : Bool :=
  (y % 4 == 0 && y % 100 != 0) || y % 400 == 0

/-- Days in a month of the Gregorian calendar. -/
def daysInMonth (y m : Nat) : Nat :=
  if m == 2 then (if isLeapYear y then 29 else 28)
  else if m == 4 || m == 6 || m == 9 || m == 11 then 30
  else 31

/-- Validity of a civil date-time (4-digit year, as chrono renders). -/
def validDT (t : DateTimeUtc) : Bool :=
  Nat.ble t.year 9999 && Nat.ble 1 t.month && Nat.ble t.month 12 &&
  Nat.ble 1 t.day && Nat.ble t.day (daysInMonth t.year t.month) &&
  Nat.blt t.hour 24 && Nat.blt t.minute 60 && Nat.blt t.second 60

/-- Decimal digit character of `n % 10`. -/
def decDigit (n : Nat) : Char := Char.ofNat (48 + n % 10)

/-- Two-digit zero-padded decimal rendering. -/
def pad2 (n : Nat) : List Char := [decDigit (n / 10), decDigit n]

/-- Four-digit zero-padded decimal rendering. -/
def pad4 (n : Nat) : List Char :=
  [decDigit (n / 1000), decDigit (n / 100), decDigit (n / 10), decDigit n]

/-- Model of `DateTime::<Utc>::to_rfc3339()` at second precision:
`YYYY-MM-DDTHH:MM:SS+00:00`. -/
def rfc3339Render (t : DateTimeUtc) : String :=
  String.mk (pad4 t.year ++ ('-' :: (pad2 t.month ++ ('-' :: (pad2 t.day ++
    ('T' :: (pad2 t.hour ++ (':' :: (pad2 t.minute ++ (':' ::
    (pad2 t.second ++ ['+', '0', '0', ':', '0', '0'])))))))))))

/-- A single ASCII decimal digit, by code point. -/
def readDigit? (c : Char) : Option Nat :=
  if 48 ≤ c.toNat ∧ c.toNat ≤ 57 then some (c.toNat - 48) else none

/-- Two decimal digits and the rest of the input. -/
def read2? : List Char → Option (Nat × List Char)
  | c1 :: c2 :: r =>
    match readDigit? c1, readDigit? c2 with
    | some d1, some d2 => some (d1 * 10 + d2, r)
    | _, _ => none
  | _ => none

/-- Four decimal digits and the rest of the input. -/
def read4? : List Char → Option (Nat × List Char)
  | c1 :: c2 :: c3 :: c4 :: r =>
    match readDigit? c1, readDigit? c2, readDigit? c3, readDigit? c4 with
    | some d1, some d2, some d3, some d4 =>
      some (((d1 * 10 + d2) * 10 + d3) * 10 + d4, r)
    | _, _, _, _ => none
  | _ => none

/-- Expect one specific character. -/
def expectChar (c : Char) : List Char → Option (List Char)
  | x :: r => if x = c then some r else none
  | [] => none

/-- Accepted trailing offsets: the zero-offset RFC3339 forms. -/
def offsetOk : List Char → Bool
  | ['Z'] => true
  | ['+', '0', '0', ':', '0', '0'] => true
  | ['-', '0', '0', ':', '0', '0'] => true
  | _ => false

/-- Model of `DateTime::parse_from_rfc3339` followed by
`.with_timezone(&Utc)`, restricted to second precision and zero UTC
offsets (the only forms this program ever writes). -/
def rfc3339Parse? (s : String) : Option DateTimeUtc :=
  match read4? s.data with
  | none => none
  | some (y, r1) =>
    match expectChar '-' r1 with
    | none => none
    | some r2 =>
      match read2? r2 with
      | none => none
      | some (mo, r3) =>
        match expectChar '-' r3 with
        | none => none
        | some r4 =>
          match read2? r4 with
          | none => none
          | some (d, r5) =>
            match expectChar 'T' r5 with
            | none => none
            | some r6 =>
              match read2? r6 with
              | none => none
              | some (h, r7) =>
                match expectChar ':' r7 with
                | none => none
                | some r8 =>
                  match read2? r8 with
                  | none => none
                  | some (mi, r9) =>
                    match expectChar ':' r9 with
                    | none => none
                    | some r10 =>
                      match read2? r10 with
                      | none => none
                      | some (sec, r11) =>
                        if offsetOk r11 then
                          if validDT ⟨y, mo, d, h, mi, sec⟩ then
                            some ⟨y, mo, d, h, mi, sec⟩
                          else none
                        else none

/- ===== line handling (Rust `str::lines` / `BufRead::lines`) ===== -/

/-- Split a character list on a separator (like Rust `str::split`):
always returns at least one (possibly empty) piece. -/
def splitOnChar (sep : Char) : List Char → List (List Char)
  | [] => [[]]
  | c :: r =>
    if c = sep then [] :: splitOnChar sep r
    else
      match splitOnChar sep r with
      | [] => [[c]]
      | l :: ls => (c :: l) :: ls

/-- Split on newlines. -/
def splitNL (l : List Char) : List (List Char) := splitOnChar '\n' l

/-- Strip one trailing carriage return (Rust `lines` does this per line). -/
def stripCR (l : List Char) : List Char :=
  if l.getLast? = some '\r' then l.dropLast else l

/-- Model of Rust `str::lines` / `BufRead::lines`: split on `'\n'`, drop
the final empty piece produced by a trailing newline, strip a trailing
`'\r'` from each line. -/
def rustLines (s : List Char) : List (List Char) :=
  (if (splitNL s).getLast? = some [] then (splitNL s).dropLast
   else splitNL s).map stripCR

/-- Trailing-whitespace trim (Rust `str::trim_end`, ASCII whitespace). -/
def trimEndL (l : List Char) : List Char :=
  (l.reverse.dropWhile Char.isWhitespace).reverse

/-- Leading-whitespace trim (Rust `str::trim_start`). -/
def trimStartL (l : List Char) : List Char := l.dropWhile Char.isWhitespace

/-- Both-ends trim (Rust `str::trim`). -/
def trimL (l : List Char) : List Char := trimEndL (trimStartL l)

/-- Join lines, terminating each with `'\n'` (how the tool writes files). -/
def joinLines (ls : List (List Char)) : List Char :=
  ls.foldr (fun l acc => l ++ '\n' :: acc) []

/-- Rust `line.splitn(2, ' ')`: split at the first space only.
`none` models the one-piece result (no space present); `some (a, b)`
models the two pieces (`b` keeps any further spaces). -/
def splitn2Space : List Char → Option (List Char × List Char)
  | [] => none
  | c :: r =>
    if c = ' ' then some ([], r)
    else
      match splitn2Space r with
      | none => none
      | some (a, b) => some (c :: a, b)

/- ===== data model (src/lib.rs) ===== -/

/-- Structure `Migration` from src/lib.rs (`file_path` kept as a string). -/
structure Migration where
  id : String
  version : String
  file_path : String
deriving DecidableEq

/-- Structure `AppliedMigration` from src/lib.rs. -/
structure AppliedMigration where
  id : String
  applied_at : DateTimeUtc
deriving DecidableEq

/-- Structure `ExecutionResult` from src/lib.rs. -/
structure ExecutionResult where
  success : Bool
  exit_code : Int
  error : Option String
deriving DecidableEq

/-- Decidable equality for `Except`, used to evaluate results on
concrete inputs. -/
instance {ε α : Type} [DecidableEq ε] [DecidableEq α] :
    DecidableEq (Except ε α) := fun a b =>
  match a, b with
  | .ok x, .ok y =>
    if h : x = y then .isTrue (h ▸ rfl)
    else .isFalse (fun hc => h (Except.ok.inj hc))
  | .error x, .error y =>
    if h : x = y then .isTrue (h ▸ rfl)
    else .isFalse (fun hc => h (Except.error.inj hc))
  | .ok _, .error _ => .isFalse (fun hc => Except.noConfusion hc)
  | .error _, .ok _ => .isFalse (fun hc => Except.noConfusion hc)

/- ===== src/state.rs ===== -/

/-- One iteration of the `read_history` line loop: trim, skip empty,
split at the first space (`splitn(2, ' ')`), skip if there is only one
piece, otherwise parse the second piece as an RFC3339 timestamp and
append the record; a malformed timestamp aborts with a parse error. -/
def historyStep (acc : List AppliedMigration) (line : List Char) :
    Except String (List AppliedMigration) :=
  if (trimL line).isEmpty then .ok acc
  else
    match splitn2Space (trimL line) with
    | none => .ok acc
    | some (i, ts) =>
      match rfc3339Parse? (String.mk ts) with
      | none => .error ("Invalid timestamp in history file: " ++ String.mk ts)
      | some dt => .ok (acc ++ [⟨String.mk i, dt⟩])

/-- The line loop of `read_history`. -/
def readHistoryLines :
    List (List Char) → List AppliedMigration →
    Except String (List AppliedMigration)
  | [], acc => .ok acc
  | l :: ls, acc =>
    match historyStep acc l with
    | .ok acc2 => readHistoryLines ls acc2
    | .error e => .error e

/-- Function `read_history` from src/state.rs, over the history file contents
(a missing file is the empty content, giving the empty record list). -/
def read_history (content : String) :
    Except String (List AppliedMigration) :=
  readHistoryLines (rustLines content.data) []

/-- Function `append_history` from src/state.rs: appends one line
`<id> <rfc3339 timestamp>\n` to the file contents. -/
def append_history (content : String) (id : String)
    (applied_at : DateTimeUtc) : String :=
  content ++ id ++ " " ++ rfc3339Render applied_at ++ "\n"

/-- Function `get_pending` as defined at src/state.rs:67-78: filters `available`
by membership of `id` in the applied set.  Note: this definition takes
no baseline argument and performs no baseline filtering, although its
callers (src/commands/up.rs:42, src/commands/status.rs:27) pass one. -/
def get_pending (available : List Migration)
    (applied : List AppliedMigration) : List Migration :=
  available.filter (fun m => !(applied.any (fun a => a.id == m.id)))

/-- Modelled from the spec: the three-argument pending computation that
src/commands/up.rs and src/commands/status.rs invoke (its definition is
missing from src/state.rs, which only has the two-argument form) -
"the set of Migrations whose id is absent from HistoryStore AND (no
Baseline exists OR version > Baseline.version)", preserving order. -/
def get_pending_spec (available : List Migration)
    (applied : List AppliedMigration) (baselineVersion : Option String) :
    List Migration :=
  available.filter (fun m =>
    !(applied.any (fun a => a.id == m.id)) &&
    (match baselineVersion with
     | none => true
     | some bv => decide (bv.data < m.version.data)))

/- ===== src/baseline.rs ===== -/

/-- Structure `Baseline` from src/baseline.rs. -/
structure Baseline where
  version : String
  created : DateTimeUtc
  summary : Option String
deriving DecidableEq

/-- Function `version_lte` from src/baseline.rs (`v1 <= v2` on Rust `&str` is
byte-lexicographic, which on this data coincides with Lean's
character-lexicographic order on `String.data`). -/
def version_lte (v1 v2 : String) : Bool := decide (v1.data ≤ v2.data)

/-- The `version < existing.version` comparison in `validate_baseline`. -/
def version_lt (v1 v2 : String) : Bool := decide (v1.data < v2.data)

/-- The line list written by `write_baseline`:
`version:` and `created:` lines, then for a present summary the
`summary: |` header and each summary line indented by two spaces. -/
def baselineLines (b : Baseline) : List (List Char) :=
  ("version: " ++ b.version).data ::
  ("created: " ++ rfc3339Render b.created).data ::
  (match b.summary with
   | none => []
   | some s => "summary: |".data ::
       (rustLines s.data).map (fun l => ' ' :: ' ' :: l))

/-- Function `write_baseline` from src/baseline.rs, as the file contents it
produces (each line written with a trailing newline). -/
def write_baseline (b : Baseline) : String :=
  String.mk (joinLines (baselineLines b))

/-- Parser state of `parse_baseline` (its local mutable variables). -/
structure PBAcc where
  version : Option String
  created : Option DateTimeUtc
  summary : Option String
  inSummary : Bool
  summaryLines : List (List Char)
deriving DecidableEq

/-- Function `strip_prefix`: drop an expected leading segment. -/
def dropPre? : List Char → List Char → Option (List Char)
  | [], l => some l
  | _, [] => none
  | p :: ps, c :: cs => if c = p then dropPre? ps cs else none

/-- Model of `Vec::join("\n")`: concatenate with a single newline between
elements. -/
def interNL : List (List Char) → List Char
  | [] => []
  | [l] => l
  | l :: ls => l ++ '\n' :: interNL ls

/-- Computing `summary_lines.join("\n").trim_end()`. -/
def joinSummary (ls : List (List Char)) : String :=
  String.mk (trimEndL (interNL ls))

/-- The `key: value` handling of a `parse_baseline` line (the
`version:` / `created:` / `summary:` branch chain). -/
def pbKeyValue (st : PBAcc) (line : List Char) : Except String PBAcc :=
  match dropPre? "version:".data line with
  | some rest => .ok { st with version := some (String.mk (trimL rest)) }
  | none =>
    match dropPre? "created:".data line with
    | some rest =>
      match rfc3339Parse? (String.mk (trimL rest)) with
      | none => .error ("Invalid timestamp in baseline: " ++
          String.mk (trimL rest))
      | some dt => .ok { st with created := some dt }
    | none =>
      match dropPre? "summary:".data line with
      | some rest =>
        if trimL rest = ['|'] then .ok { st with inSummary := true }
        else if (trimL rest).isEmpty then .ok st
        else .ok { st with summary := some (String.mk (trimL rest)) }
      | none => .ok st

/-- One `parse_baseline` loop iteration: while in a summary block,
2-space-indented lines are consumed with the indent stripped, other
indented or blank lines are consumed trimmed (blank kept empty), and the
first non-blank unindented line closes the block (joining the collected
lines with trailing whitespace trimmed) and is then processed as a
normal `key: value` line. -/
def pbLine (st : PBAcc) (line : List Char) : Except String PBAcc :=
  if st.inSummary then
    match dropPre? "  ".data line with
    | some stripped =>
      .ok { st with summaryLines := st.summaryLines ++ [stripped] }
    | none =>
      if line.head? = some ' ' ∨ line.isEmpty then
        .ok { st with summaryLines := st.summaryLines ++
          [if line.isEmpty then [] else trimStartL line] }
      else
        pbKeyValue
          { st with
            inSummary := false
            summary := some (joinSummary st.summaryLines)
            summaryLines := [] } line
  else pbKeyValue st line

/-- The `parse_baseline` line loop. -/
def parseBaselineLines :
    List (List Char) → PBAcc → Except String PBAcc
  | [], st => .ok st
  | l :: ls, st =>
    match pbLine st l with
    | .error e => .error e
    | .ok st2 => parseBaselineLines ls st2

/-- The end-of-file fixup of `parse_baseline`: a summary block still
open at end of input is committed, but only if it collected at least
one line. -/
def pbClose (st : PBAcc) : PBAcc :=
  if st.inSummary ∧ st.summaryLines ≠ [] then
    { st with summary := some (joinSummary st.summaryLines) }
  else st

/-- The final field checks of `parse_baseline`: `version` and `created`
are required. -/
def pbFinish (st : PBAcc) : Except String Baseline :=
  match (pbClose st).version with
  | none => .error "Baseline file missing version field"
  | some v =>
    match (pbClose st).created with
    | none => .error "Baseline file missing created field"
    | some c => .ok ⟨v, c, (pbClose st).summary⟩

/-- Function `parse_baseline` from src/baseline.rs: run the line state machine,
close a summary block left open at end of file (only if it collected at
least one line), then require the `version` and `created` fields. -/
def parse_baseline (content : String) : Except String Baseline :=
  match parseBaselineLines (rustLines content.data)
      ⟨none, none, none, false, []⟩ with
  | .error e => .error e
  | .ok st => pbFinish st

/-- The unapplied-prerequisite scan of `validate_baseline`: the first
migration (in `available` order) with `version <= target` whose id is
absent from `applied`. -/
def firstUnapplied (version : String) (available : List Migration)
    (applied : List AppliedMigration) : Option Migration :=
  available.find? (fun m =>
    version_lte m.version version &&
    !(applied.any (fun a => a.id == m.id)))

/-- Function `validate_baseline` from src/baseline.rs: error when (1) no
available migration has the target version; (2) the target is
lexicographically below an existing baseline version; (3) some
available migration at or below the target is not in `applied`. -/
def validate_baseline (version : String) (available : List Migration)
    (applied : List AppliedMigration)
    (existing_baseline : Option Baseline) : Except String Unit :=
  if (available.find? (fun m => m.version == version)).isNone then
    .error ("No migration found with version " ++ version)
  else if (match existing_baseline with
           | some existing => version_lt version existing.version
           | none => false) then
    .error "Cannot move baseline backward"
  else
    match firstUnapplied version available applied with
    | some m =>
      .error ("Cannot baseline: migration " ++ m.id ++
        " has not been applied")
    | none => .ok ()

/- ===== src/commands/up.rs ===== -/

/-- Outcome of a failed `up` run: the surfaced `anyhow` error.
`execFailed id code` models the anyhow message naming the failed
migration id and its exit code; `execCrashed` models an error
propagated from the `execute` call itself (runner failed to spawn). -/
inductive UpError where
  | execFailed (id : String) (exit_code : Int)
  | execCrashed (msg : String)
deriving DecidableEq

/-- The migration loop of `run` in src/commands/up.rs, over the fixed
pending sequence.  `runner` is the external `execute` collaborator;
`clock` supplies `Utc::now()` for the `t`-th history append.  The state
is the history-file record list (history survives a failed run; the
function returns the final history together with the error, if any).
Dry runs skip execution and appends.  On success the record is appended
to the history passed to the *next* iteration; on reported failure the
loop stops at once with the migration id and exit code. -/
def up_run_loop (runner : Migration → Except String ExecutionResult)
    (clock : Nat → DateTimeUtc) (dry_run : Bool) :
    List Migration → List AppliedMigration → Nat →
    List AppliedMigration × Option UpError
  | [], hist, _ => (hist, none)
  | m :: rest, hist, t =>
    if dry_run then up_run_loop runner clock dry_run rest hist t
    else
      match runner m with
      | .error e => (hist, some (.execCrashed e))
      | .ok r =>
        if r.success then
          up_run_loop runner clock dry_run rest
            (hist ++ [⟨m.id, clock t⟩]) (t + 1)
        else (hist, some (.execFailed m.id r.exit_code))

/-- The history records appended for a run of successful migrations
starting at clock index `t`: one record per migration, in order, each
with the timestamp of its own append. -/
def recordsFor (clock : Nat → DateTimeUtc) :
    Nat → List Migration → List AppliedMigration
  | _, [] => []
  | t, m :: ms => ⟨m.id, clock t⟩ :: recordsFor clock (t + 1) ms

/- ===== src/loader.rs ===== -/

/-- Function `extract_version` from src/loader.rs: a filename shorter than 6
bytes, or without `'-'` at index 5, or whose first five characters are
not a valid version, yields `None`. -/
def extract_version (filename : String) : Option String :=
  if filename.length < 6 then none
  else if filename.data.get? 5 ≠ some '-' then none
  else if is_valid_version (String.mk (filename.data.take 5)) then
    some (String.mk (filename.data.take 5))
  else none

/- ===== src/commands/create.rs ===== -/

/-- Decimal formatting zero-padded to at least width 3 (the format
width specifier create.rs uses for the sequence number). -/
def formatPad3 (n : Nat) : String :=
  String.mk (List.replicate (3 - (Nat.toDigits 10 n).length) '0' ++
    Nat.toDigits 10 n)

/-- The `next_prefix` computation of `run` in src/commands/create.rs:
`existing.iter().map(|m| m.prefix).max().unwrap_or(0) + 1`.  The
`prefix` field it reads does not exist on `Migration` (src/lib.rs), so
the numeric values are taken as an input list here. -/
def create_next_seq (seqs : List Nat) : Nat := seqs.foldl max 0 + 1

/-- The filename built by `run` in src/commands/create.rs: the 3-digit
zero-padded decimal sequence number, a dash, the migration name, and
the template extension. -/
def create_filename (next : Nat) (name ext : String) : String :=
  formatPad3 next ++ "-" ++ name ++ ext

/- ===== concrete fixtures used by witnesses and counterexamples ===== -/

/-- A sample migration at version 00001. -/
def migA : Migration := ⟨"00001-a", "00001", "00001-a.sh"⟩

/-- A second sample migration at version 00002. -/
def migB : Migration := ⟨"00002-b", "00002", "00002-b.sh"⟩

/-- A third sample migration at version 00003. -/
def migC : Migration := ⟨"00003-c", "00003", "00003-c.sh"⟩

/-- A sample timestamp: 2024-06-15T14:30:00Z. -/
def dt2024 : DateTimeUtc := ⟨2024, 6, 15, 14, 30, 0⟩

/-- A runner that reports failure with exit code 1 for `migB` and
success for everything else. -/
def demoRunner (m : Migration) : Except String ExecutionResult :=
  if m.id == "00002-b" then .ok ⟨false, 1, none⟩ else .ok ⟨true, 0, none⟩

/-- A constant clock. -/
def demoClock (_ : Nat) : DateTimeUtc := dt2024

/- ===== general lemmas: lexicographic order on strings ===== -/

/-- Lean `String` order coincides with `List.Lex (· < ·)` on the
character data (this is the byte order Rust uses on ASCII). -/
theorem str_lt_iff (a b : String) :
    a < b ↔ List.Lex (fun c d : Char => c < d) a.data b.data := by
  rw [String.lt_iff_toList_lt]
  exact Iff.rfl

/-- A strict lexicographic comparison of equal-length lists survives
appending arbitrary tails. -/
theorem lex_append_right {r : Char → Char → Prop} :
    ∀ {l1 l2 : List Char}, List.Lex r l1 l2 → l1.length = l2.length →
    ∀ x y, List.Lex r (l1 ++ x) (l2 ++ y) := by
  intro l1 l2 h
  induction h with
  | nil => intro hlen; simp at hlen
  | rel hr => intro _ x y; exact List.Lex.rel hr
  | cons h ih =>
    intro hlen x y
    simp only [List.length_cons, Nat.succ.injEq] at hlen
    exact List.Lex.cons (ih hlen x y)

/-- A strict lexicographic comparison survives a common prepended
segment. -/
theorem lex_append_same {r : Char → Char → Prop} :
    ∀ (s : List Char) {x y : List Char}, List.Lex r x y →
    List.Lex r (s ++ x) (s ++ y) := by
  intro s
  induction s with
  | nil => intro x y h; simpa using h
  | cons c s ih => intro x y h; exact List.Lex.cons (ih h)

/- ===== base36 codec lemmas ===== -/

/-- The digit loop is insensitive to the fuel bound once it is large
enough. -/
theorem toDigitsRevAux_congr (n : Nat) :
    ∀ f1 f2, n ≤ f1 → n ≤ f2 → toDigitsRevAux f1 n = toDigitsRevAux f2 n := by
  induction n using Nat.strong_induction_on with
  | _ n ih =>
    intro f1 f2 h1 h2
    match f1, f2 with
    | 0, 0 => rfl
    | 0, f2 + 1 =>
      have : n = 0 := by omega
      subst this; simp [toDigitsRevAux]
    | f1 + 1, 0 =>
      have : n = 0 := by omega
      subst this; simp [toDigitsRevAux]
    | f1 + 1, f2 + 1 =>
      by_cases hn : n = 0
      · subst hn; simp [toDigitsRevAux]
      · simp only [toDigitsRevAux, hn, if_false]
        have hd : n / 36 < n := Nat.div_lt_self (Nat.pos_of_ne_zero hn) (by omega)
        rw [ih (n / 36) hd f1 f2 (by omega) (by omega)]

/-- Unfolding equation of the digit loop. -/
theorem toDigitsRev_eq (n : Nat) (hn : n ≠ 0) :
    toDigitsRev n = base36Char (n % 36) :: toDigitsRev (n / 36) := by
  match n, hn with
  | m + 1, _ =>
    show toDigitsRevAux (m + 1) (m + 1) = _
    simp only [toDigitsRevAux, Nat.succ_ne_zero, if_false]
    have hd : (m + 1) / 36 < m + 1 := Nat.div_lt_self (by omega) (by omega)
    rw [toDigitsRevAux_congr ((m + 1) / 36) m ((m + 1) / 36) (by omega) (by omega)]
    rfl

/-- Digit-count upper bound: `n < 36 ^ w` needs at most `w` digits. -/
theorem length_toDigitsRev_le : ∀ w n, n < 36 ^ w → (toDigitsRev n).length ≤ w := by
  intro w
  induction w with
  | zero =>
    intro n h
    have : n = 0 := by simpa using h
    subst this; simp [toDigitsRev, toDigitsRevAux]
  | succ w ih =>
    intro n h
    by_cases hn : n = 0
    · subst hn; simp [toDigitsRev, toDigitsRevAux]
    · rw [toDigitsRev_eq n hn]
      simp only [List.length_cons, Nat.succ_le_succ_iff]
      apply ih
      rw [Nat.div_lt_iff_lt_mul (by omega)]
      calc n < 36 ^ (w + 1) := h
        _ = 36 ^ w * 36 := pow_succ 36 w

/-- Digit-count lower bound: `36 ^ w ≤ n` needs more than `w` digits. -/
theorem length_toDigitsRev_gt : ∀ w n, 36 ^ w ≤ n → w < (toDigitsRev n).length := by
  intro w
  induction w with
  | zero =>
    intro n h
    have h1 : 1 ≤ n := by simpa using h
    rw [toDigitsRev_eq n (by omega)]
    simp
  | succ w ih =>
    intro n h
    have hn : n ≠ 0 := by
      have : 0 < 36 ^ (w + 1) := pow_pos (by omega) _
      omega
    rw [toDigitsRev_eq n hn]
    simp only [List.length_cons, Nat.succ_lt_succ_iff]
    apply ih
    rw [Nat.le_div_iff_mul_le (by omega : 0 < 36)]
    calc 36 ^ w * 36 = 36 ^ (w + 1) := (pow_succ 36 w).symm
      _ ≤ n := h

/-- Lemma: `digitsLEPad` always has exactly its width. -/
theorem length_digitsLEPad : ∀ w n, (digitsLEPad w n).length = w := by
  intro w
  induction w with
  | zero => intro n; rfl
  | succ w ih => intro n; simp [digitsLEPad, ih]

/-- Padding zero gives all zero digits. -/
theorem digitsLEPad_zero : ∀ w, digitsLEPad w 0 = List.replicate w '0' := by
  intro w
  induction w with
  | zero => rfl
  | succ w ih => simp [digitsLEPad, List.replicate_succ, ih]; rfl

/-- On in-range input, `digitsLEPad` is the loop digits plus zero
padding. -/
theorem digitsLEPad_eq : ∀ w n, n < 36 ^ w →
    digitsLEPad w n =
      toDigitsRev n ++ List.replicate (w - (toDigitsRev n).length) '0' := by
  intro w
  induction w with
  | zero =>
    intro n h
    have : n = 0 := by simpa using h
    subst this; rfl
  | succ w ih =>
    intro n h
    by_cases hn : n = 0
    · subst hn
      simp only [digitsLEPad_zero]
      simp [toDigitsRev, toDigitsRevAux]
    · have hdb : n / 36 < 36 ^ w := by
        rw [Nat.div_lt_iff_lt_mul (by omega)]
        calc n < 36 ^ (w + 1) := h
          _ = 36 ^ w * 36 := pow_succ 36 w
      have hlen : (toDigitsRev (n / 36)).length ≤ w := length_toDigitsRev_le w _ hdb
      rw [toDigitsRev_eq n hn]
      simp only [digitsLEPad, List.length_cons, List.cons_append]
      rw [ih (n / 36) hdb, Nat.succ_sub_succ]

/-- The string built by `encode_base36` on in-range input, as data. -/
theorem encode_data (n w : Nat) (h : n < 36 ^ w) :
    (encode_base36 n w).data = (digitsLEPad w n).reverse := by
  by_cases hn : n = 0
  · subst hn
    simp [encode_base36, digitsLEPad_zero, List.reverse_replicate]
  · simp only [encode_base36, hn, if_false]
    rw [digitsLEPad_eq w n h]

/-- The base36 alphabet is strictly monotone on digit values. -/
theorem base36Char_mono : ∀ d1, d1 < 36 → ∀ d2, d2 < 36 → d1 < d2 →
    base36Char d1 < base36Char d2 := by decide

/-- Fixed-width big-endian base36 digit strings compare like their
values. -/
theorem digitsLEPad_rev_lex : ∀ w n1 n2, n1 < n2 → n2 < 36 ^ w →
    List.Lex (fun c d : Char => c < d)
      (digitsLEPad w n1).reverse (digitsLEPad w n2).reverse := by
  intro w
  induction w with
  | zero => intro n1 n2 h hb; simp at hb; omega
  | succ w ih =>
    intro n1 n2 h hb
    simp only [digitsLEPad, List.reverse_cons]
    rcases Nat.lt_or_ge (n1 / 36) (n2 / 36) with hd | hd
    · have hdb : n2 / 36 < 36 ^ w := by
        rw [Nat.div_lt_iff_lt_mul (by omega)]
        calc n2 < 36 ^ (w + 1) := hb
          _ = 36 ^ w * 36 := pow_succ 36 w
      exact lex_append_right (ih _ _ hd hdb)
        (by simp [length_digitsLEPad]) _ _
    · have hde : n1 / 36 = n2 / 36 :=
        Nat.le_antisymm (Nat.div_le_div_right (Nat.le_of_lt h)) hd
      have hm : n1 % 36 < n2 % 36 := by
        have e1 := Nat.div_add_mod n1 36
        have e2 := Nat.div_add_mod n2 36
        omega
      rw [hde]
      exact lex_append_same _
        (List.Lex.rel (base36Char_mono _ (Nat.mod_lt _ (by omega)) _
          (Nat.mod_lt _ (by omega)) hm))

/-- Fixed-width encodings of in-range values compare like the values. -/
theorem encode_base36_mono (w n1 n2 : Nat) (h : n1 < n2) (hb : n2 < 36 ^ w) :
    encode_base36 n1 w < encode_base36 n2 w := by
  rw [str_lt_iff, encode_data n1 w (Nat.lt_trans h hb), encode_data n2 w hb]
  exact digitsLEPad_rev_lex w n1 n2 h hb

/- ===== decode lemmas ===== -/

/-- Lemma: `decodeGo` distributes over append. -/
theorem decodeGo_append : ∀ (xs ys : List Char) (acc : Nat),
    decodeGo acc (xs ++ ys) =
      (decodeGo acc xs).bind (fun a => decodeGo a ys) := by
  intro xs
  induction xs with
  | nil => intro ys acc; rfl
  | cons c cs ih =>
    intro ys acc
    simp only [List.cons_append, decodeGo]
    cases h : base36DigitVal c with
    | none => rfl
    | some d =>
      by_cases h1 : acc * 36 > u32Max
      · simp [h1]
      · by_cases h2 : acc * 36 + d > u32Max
        · simp [h1, h2]
        · simp [h1, h2, ih]

/-- Leading zero characters are consumed with no effect on a zero
accumulator. -/
theorem decodeGo_zeros : ∀ (k : Nat) (rest : List Char),
    decodeGo 0 (List.replicate k '0' ++ rest) = decodeGo 0 rest := by
  intro k
  induction k with
  | zero => intro rest; rfl
  | succ k ih =>
    intro rest
    simp only [List.replicate_succ, List.cons_append, decodeGo]
    norm_num [base36DigitVal, u32Max]
    exact ih rest

/-- The digit characters decode back to their values. -/
theorem base36DigitVal_base36Char : ∀ d, d < 36 →
    base36DigitVal (base36Char d) = some d := by decide

/-- Decoding the (reversed, most-significant-first) digit string of `n`
extends the accumulator by `n`, provided the final value stays within
`u32`. -/
theorem decodeGo_toDigitsRev (n : Nat) : ∀ acc : Nat,
    acc * 36 ^ (toDigitsRev n).length + n ≤ u32Max →
    decodeGo acc (toDigitsRev n).reverse =
      some (acc * 36 ^ (toDigitsRev n).length + n) := by
  induction n using Nat.strong_induction_on with
  | _ n ih =>
    intro acc hb
    by_cases hn : n = 0
    · subst hn
      simp [toDigitsRev, toDigitsRevAux, decodeGo]
    · rw [toDigitsRev_eq n hn] at hb ⊢
      simp only [List.length_cons] at hb ⊢
      have epow : (36 : Nat) ^ ((toDigitsRev (n / 36)).length + 1) =
          36 ^ (toDigitsRev (n / 36)).length * 36 := pow_succ 36 _
      have emod := Nat.div_add_mod n 36
      have ekey : (acc * 36 ^ (toDigitsRev (n / 36)).length + n / 36) * 36
            + n % 36 =
          acc * 36 ^ ((toDigitsRev (n / 36)).length + 1) + n := by
        rw [epow]
        calc (acc * 36 ^ (toDigitsRev (n / 36)).length + n / 36) * 36 + n % 36
            = acc * (36 ^ (toDigitsRev (n / 36)).length * 36) +
              (36 * (n / 36) + n % 36) := by ring
          _ = _ := by rw [emod]
      have hYb : acc * 36 ^ (toDigitsRev (n / 36)).length + n / 36 ≤ u32Max := by
        have h1 : acc * 36 ^ (toDigitsRev (n / 36)).length + n / 36 ≤
            (acc * 36 ^ (toDigitsRev (n / 36)).length + n / 36) * 36 :=
          Nat.le_mul_of_pos_right _ (by omega)
        omega
      have hdiv : n / 36 < n := Nat.div_lt_self (Nat.pos_of_ne_zero hn) (by omega)
      rw [List.reverse_cons, decodeGo_append, ih (n / 36) hdiv acc hYb]
      show decodeGo (acc * 36 ^ (toDigitsRev (n / 36)).length + n / 36)
        [base36Char (n % 36)] = _
      simp only [decodeGo,
        base36DigitVal_base36Char (n % 36) (Nat.mod_lt _ (by omega))]
      have c1 : ¬ (acc * 36 ^ (toDigitsRev (n / 36)).length + n / 36) * 36 >
          u32Max := by omega
      have c2 : ¬ (acc * 36 ^ (toDigitsRev (n / 36)).length + n / 36) * 36 +
          n % 36 > u32Max := by omega
      simp only [c1, if_false, c2]
      rw [ekey]

/- ===== claim theorems: the version codec (C3, C4, C5) ===== -/

/-- C4 counterexample: the claim asserts `encode_base36(n, w)` always
returns exactly `w` characters, truncating to the low-order digits on
overflow.  The code does not truncate: `encode_base36(46656, 3)` is the
four-character string `"1000"` (46656 = 36^3). -/
theorem encode_base36_truncation_cx :
    encode_base36 46656 3 = "1000" ∧ (encode_base36 46656 3).length ≠ 3 := by
  decide

/-- C4 (amended): `encode_base36(n, w)` returns exactly `w` characters
when `n` fits in `w` base36 digits (`n < 36^w`); when `n` does not fit,
all its digits are kept with no padding (the same string as width 0),
so the result is strictly longer than `w` - it never truncates and
never errors. -/
theorem encode_base36_length (n w : Nat) :
    (n < 36 ^ w → (encode_base36 n w).length = w) ∧
    (36 ^ w ≤ n →
      encode_base36 n w = encode_base36 n 0 ∧
      w < (encode_base36 n w).length) := by
  constructor
  · intro h
    show (encode_base36 n w).data.length = w
    rw [encode_data n w h]
    simp [length_digitsLEPad]
  · intro h
    have hn : n ≠ 0 := by
      have : 0 < 36 ^ w := pow_pos (by omega) w
      omega
    have hlen : w < (toDigitsRev n).length := length_toDigitsRev_gt w n h
    have hsub : w - (toDigitsRev n).length = 0 := by omega
    constructor
    · simp [encode_base36, hn, hsub]
    · show w < (encode_base36 n w).data.length
      simp [encode_base36, hn, hsub, hlen]

/-- C4 witness: width 3 is exact for 1000; width 1 overflows to the
full 3-digit string. -/
theorem encode_base36_length_witness :
    ((1000 : Nat) < 36 ^ 3 ∧ (encode_base36 1000 3).length = 3) ∧
    (36 ^ 1 ≤ (1000 : Nat) ∧ encode_base36 1000 1 = encode_base36 1000 0 ∧
      1 < (encode_base36 1000 1).length) :=
  ⟨⟨by decide, (encode_base36_length 1000 3).1 (by decide)⟩,
   ⟨by decide, (encode_base36_length 1000 1).2 (by decide)⟩⟩

/-- C5: encode/decode round-trip - for every `n` in `u32` range that is
representable in `w` base36 digits, `decode_base36 (encode_base36 n w)`
returns `some n`. -/
theorem decode_encode_base36 (n w : Nat) (hn : n ≤ u32Max)
    (hw : n < 36 ^ w) : decode_base36 (encode_base36 n w) = some n := by
  by_cases h0 : n = 0
  · subst h0
    show decodeGo 0 (encode_base36 0 w).data = some 0
    have hdata : (encode_base36 0 w).data = List.replicate w '0' ++ [] := by
      simp [encode_base36]
    rw [hdata, decodeGo_zeros w []]
    rfl
  · show decodeGo 0 (encode_base36 n w).data = some n
    have hdata : (encode_base36 n w).data =
        List.replicate (w - (toDigitsRev n).length) '0' ++
          (toDigitsRev n).reverse := by
      simp [encode_base36, h0, List.reverse_append, List.reverse_replicate]
    rw [hdata, decodeGo_zeros, decodeGo_toDigitsRev n 0 (by simpa using hn)]
    simp

/-- C5 witness: 1000 encodes at width 3 to `"0rs"` and decodes back. -/
theorem decode_encode_base36_witness :
    (1000 : Nat) ≤ u32Max ∧ (1000 : Nat) < 36 ^ 3 ∧
    decode_base36 (encode_base36 1000 3) = some 1000 :=
  ⟨by decide, by decide, decode_encode_base36 1000 3 (by decide) (by decide)⟩

/-- C3 counterexample: the claim quantifies over all timestamps, but
when the day counter overflows three base36 digits the concatenated
code is longer than five characters and the lexicographic order breaks:
day 46655 (code `zzz00`) compares above day 46656 (code `100000`),
although the second timestamp is a full day later. -/
theorem generate_version_not_mono :
    (4030992000 : Nat) < 4031078400 ∧
    600 < 4031078400 - 4030992000 ∧
    4030992000 / 86400 ≤ 4031078400 / 86400 ∧
    ¬ generate_version 4030992000 < generate_version 4031078400 := by
  refine ⟨by decide, by decide, by decide, ?_⟩
  rw [String.lt_iff_toList_lt]
  decide

/-- C3 (amended): for timestamps `t1 < t2` (seconds since the
2020-01-01 epoch) more than 10 minutes apart, with `t2` on the same or
a later calendar day, and with the day count of `t2` still within three
base36 digits, the generated version of `t1` is lexicographically
strictly below that of `t2`. -/
theorem generate_version_mono (t1 t2 : Nat) (h12 : t1 < t2)
    (hgap : 600 < t2 - t1) (hday : t1 / 86400 ≤ t2 / 86400)
    (hb : t2 / 86400 < 36 ^ 3) :
    generate_version t1 < generate_version t2 := by
  unfold generate_version
  have hslot_eq : ∀ t : Nat, t % 86400 / 60 / 10 = t % 86400 / 600 := by
    intro t
    rw [Nat.div_div_eq_div_mul]
  have hs1b : t1 % 86400 / 60 / 10 < 36 ^ 2 := by
    rw [hslot_eq]
    have : t1 % 86400 < 86400 := Nat.mod_lt _ (by omega)
    have : t1 % 86400 / 600 < 144 := by
      rw [Nat.div_lt_iff_lt_mul (by omega)]
      omega
    omega
  have hs2b : t2 % 86400 / 60 / 10 < 36 ^ 2 := by
    rw [hslot_eq]
    have : t2 % 86400 < 86400 := Nat.mod_lt _ (by omega)
    have : t2 % 86400 / 600 < 144 := by
      rw [Nat.div_lt_iff_lt_mul (by omega)]
      omega
    omega
  rcases Nat.lt_or_ge (t1 / 86400) (t2 / 86400) with hd | hd
  · rw [str_lt_iff]
    simp only [String.data_append]
    rw [encode_data (t1 / 86400) 3 (by omega), encode_data (t2 / 86400) 3 hb]
    exact lex_append_right (digitsLEPad_rev_lex 3 _ _ hd hb)
      (by simp [length_digitsLEPad]) _ _
  · have hde : t1 / 86400 = t2 / 86400 := by omega
    have e1 := Nat.div_add_mod t1 86400
    have e2 := Nat.div_add_mod t2 86400
    have hr : t1 % 86400 + 600 < t2 % 86400 := by omega
    have hslot : t1 % 86400 / 60 / 10 < t2 % 86400 / 60 / 10 := by
      rw [hslot_eq, hslot_eq]
      have h1 : (t1 % 86400 + 600) / 600 ≤ t2 % 86400 / 600 :=
        Nat.div_le_div_right (by omega)
      rw [Nat.add_div_right _ (by omega : 0 < 600)] at h1
      omega
    rw [hde, str_lt_iff]
    simp only [String.data_append]
    apply lex_append_same
    rw [encode_data _ 2 hs1b, encode_data _ 2 hs2b]
    exact digitsLEPad_rev_lex 2 _ _ hslot hs2b

/-- C3 witness: epoch instant versus 601 seconds later (same day, next
10-minute slot). -/
theorem generate_version_mono_witness :
    (0 : Nat) < 601 ∧ 600 < 601 - 0 ∧ 0 / 86400 ≤ 601 / 86400 ∧
    601 / 86400 < 36 ^ 3 ∧ generate_version 0 < generate_version 601 :=
  ⟨by decide, by decide, by decide, by decide,
   generate_version_mono 0 601 (by decide) (by decide) (by decide) (by decide)⟩

/- ===== claim theorems: pending computation (C1) ===== -/

/-- C1: the `get_pending` actually defined at src/state.rs:67-78 takes
no baseline and performs no baseline filtering.  With one available
migration at version `00001`, an empty applied list and a baseline at
version `00002` on record, the migration (whose version is below the
baseline) is still returned as pending, contradicting the claim (and
the three-argument call sites in up.rs/status.rs, with which this
definition does not even compile). -/
theorem get_pending_ignores_baseline :
    get_pending [migA] [] = [migA] ∧
    version_lte migA.version "00002" = true := by decide

/- ===== claim theorems: create command (C8) ===== -/

/-- C8: the filename built by src/commands/create.rs is a 3-digit
decimal sequence number (from a `prefix` field that `Migration` does
not even declare), not the 5-character base36 code of
`generate_version`: with no existing migrations and the bash template
it produces `001-test-migration.sh`, whose first five characters are
not alphanumeric (the repo's own integration test asserts they are) and
which `extract_version` rejects as unversioned. -/
theorem create_filename_not_versioned :
    create_filename (create_next_seq []) "test-migration" ".sh" =
      "001-test-migration.sh" ∧
    (("001-test-migration.sh".data.take 5).all Char.isAlphanum) = false ∧
    extract_version "001-test-migration.sh" = none := by decide

/- ===== claim theorems: execution loop (C2) ===== -/

/-- One successful non-dry-run step: the history record is appended
before the loop moves to the rest of the pending sequence. -/
theorem up_run_loop_cons_success
    (runner : Migration → Except String ExecutionResult)
    (clock : Nat → DateTimeUtc) (m : Migration) (rest : List Migration)
    (hist : List AppliedMigration) (t : Nat) (r : ExecutionResult)
    (hr : runner m = .ok r) (hs : r.success = true) :
    up_run_loop runner clock false (m :: rest) hist t =
      up_run_loop runner clock false rest (hist ++ [⟨m.id, clock t⟩])
        (t + 1) := by
  simp [up_run_loop, hr, hs]

/-- One reportedly failed non-dry-run step: the loop stops with the
migration id and exit code, and the history is left as it stands. -/
theorem up_run_loop_cons_failure
    (runner : Migration → Except String ExecutionResult)
    (clock : Nat → DateTimeUtc) (m : Migration) (rest : List Migration)
    (hist : List AppliedMigration) (t : Nat) (r : ExecutionResult)
    (hr : runner m = .ok r) (hs : r.success = false) :
    up_run_loop runner clock false (m :: rest) hist t =
      (hist, some (.execFailed m.id r.exit_code)) := by
  simp [up_run_loop, hr, hs]

/-- Main fail-fast lemma: with all of `pre` reported successful and
`bad` reported failed, the loop appends exactly one record per element
of `pre` (timestamped in order) and stops with the id and exit code of
`bad`, independently of `post`. -/
theorem up_fail_fast_aux
    (runner : Migration → Except String ExecutionResult)
    (clock : Nat → DateTimeUtc) (pre : List Migration) :
    ∀ (bad : Migration) (post : List Migration)
      (hist : List AppliedMigration) (t : Nat) (rb : ExecutionResult),
      (∀ m ∈ pre, ∃ r, runner m = .ok r ∧ r.success = true) →
      runner bad = .ok rb → rb.success = false →
      up_run_loop runner clock false (pre ++ bad :: post) hist t =
        (hist ++ recordsFor clock t pre,
         some (.execFailed bad.id rb.exit_code)) := by
  induction pre with
  | nil =>
    intro bad post hist t rb _ hbad hbs
    rw [List.nil_append, up_run_loop_cons_failure runner clock bad post
      hist t rb hbad hbs]
    simp [recordsFor]
  | cons m pre ih =>
    intro bad post hist t rb hpre hbad hbs
    obtain ⟨r, hr, hs⟩ := hpre m (List.mem_cons_self _ _)
    rw [List.cons_append, up_run_loop_cons_success runner clock m
      (pre ++ bad :: post) hist t r hr hs,
      ih bad post (hist ++ [(⟨m.id, clock t⟩ : AppliedMigration)]) (t + 1) rb
        (fun x hx => hpre x (List.mem_cons_of_mem _ hx)) hbad hbs]
    simp [recordsFor, List.append_assoc]

/-- C2: in a non-dry-run `up` over a fixed pending sequence
`pre ++ bad :: post` where the runner reports every migration of `pre`
successful and `bad` failed, (1) the run ends with one history record
appended per element of `pre`, in order, and the surfaced error names
`bad`'s id and exit code; (2) the outcome is identical whatever `post`
contains - no later pending migration is attempted; (3) after each
reported success the record is appended to the history before the next
migration is attempted (the loop recurses on the already-extended
history), not batched after the loop. -/
theorem up_fail_fast
    (runner : Migration → Except String ExecutionResult)
    (clock : Nat → DateTimeUtc) (pre : List Migration) (bad : Migration)
    (post : List Migration) (hist : List AppliedMigration) (t : Nat)
    (rb : ExecutionResult)
    (hpre : ∀ m ∈ pre, ∃ r, runner m = .ok r ∧ r.success = true)
    (hbad : runner bad = .ok rb) (hbs : rb.success = false) :
    up_run_loop runner clock false (pre ++ bad :: post) hist t =
      (hist ++ recordsFor clock t pre,
       some (.execFailed bad.id rb.exit_code)) ∧
    up_run_loop runner clock false (pre ++ bad :: post) hist t =
      up_run_loop runner clock false (pre ++ [bad]) hist t ∧
    ∀ (m : Migration) (rest : List Migration)
      (h2 : List AppliedMigration) (t2 : Nat) (r : ExecutionResult),
      runner m = .ok r → r.success = true →
      up_run_loop runner clock false (m :: rest) h2 t2 =
        up_run_loop runner clock false rest (h2 ++ [⟨m.id, clock t2⟩])
          (t2 + 1) := by
  refine ⟨up_fail_fast_aux runner clock pre bad post hist t rb hpre hbad hbs,
    ?_, ?_⟩
  · rw [up_fail_fast_aux runner clock pre bad post hist t rb hpre hbad hbs,
      up_fail_fast_aux runner clock pre bad [] hist t rb hpre hbad hbs]
  · intro m rest h2 t2 r hr hsucc
    simp [up_run_loop, hr, hsucc]

/-- C2 witness: `migA` succeeds, `migB` fails with exit code 1, `migC`
is never attempted; history keeps exactly the record for `migA`. -/
theorem up_fail_fast_witness :
    (∀ m ∈ [migA], ∃ r, demoRunner m = .ok r ∧ r.success = true) ∧
    demoRunner migB = .ok ⟨false, 1, none⟩ ∧
    up_run_loop demoRunner demoClock false ([migA] ++ migB :: [migC]) [] 0 =
      ([] ++ recordsFor demoClock 0 [migA],
       some (.execFailed migB.id (1 : Int))) := by
  have hpre : ∀ m ∈ [migA], ∃ r, demoRunner m = .ok r ∧ r.success = true := by
    intro m hm
    simp only [List.mem_singleton] at hm
    subst hm
    exact ⟨⟨true, 0, none⟩, rfl, rfl⟩
  exact ⟨hpre, rfl,
    (up_fail_fast demoRunner demoClock [migA] migB [migC] [] 0
      ⟨false, 1, none⟩ hpre rfl rfl).1⟩

/- ===== claim theorems: baseline validation (C6) ===== -/

/-- Lemma: `version_lt` agrees with the lexicographic string order. -/
theorem version_lt_iff (a b : String) : version_lt a b = true ↔ a < b := by
  unfold version_lt
  rw [decide_eq_true_eq]
  exact String.lt_iff_toList_lt.symm

/-- Lemma: `version_lte` agrees with the lexicographic string order. -/
theorem version_lte_iff (a b : String) : version_lte a b = true ↔ a ≤ b := by
  unfold version_lte
  rw [decide_eq_true_eq]
  exact String.le_iff_toList_le.symm

/-- C6: `validate_baseline` returns an error exactly when (1) no
available migration carries the target version, or (2) an existing
baseline has a version lexicographically above the target, or (3) some
available migration with version at or below the target has an id
absent from the applied records; otherwise it returns ok. -/
theorem validate_baseline_error_iff (version : String)
    (available : List Migration) (applied : List AppliedMigration)
    (existing : Option Baseline) :
    (∃ e, validate_baseline version available applied existing =
      .error e) ↔
      ((∀ m ∈ available, m.version ≠ version) ∨
       (∃ b, existing = some b ∧ version < b.version) ∨
       (∃ m ∈ available, m.version ≤ version ∧
         ∀ a ∈ applied, a.id ≠ m.id)) := by
  unfold validate_baseline
  by_cases h1 : (available.find? (fun m => m.version == version)).isNone
  · rw [if_pos h1]
    refine iff_of_true ⟨_, rfl⟩ (Or.inl ?_)
    intro m hm
    have := List.find?_eq_none.mp (Option.isNone_iff_eq_none.mp h1) m hm
    simpa using this
  · rw [if_neg h1]
    obtain ⟨m0, hm0⟩ : ∃ m0,
        available.find? (fun m => m.version == version) = some m0 := by
      cases hfind : available.find? (fun m => m.version == version) with
      | none => rw [hfind] at h1; simp at h1
      | some m0 => exact ⟨m0, rfl⟩
    have hm0mem : m0 ∈ available := List.mem_of_find?_eq_some hm0
    have hm0ver : m0.version = version := by
      have := List.find?_some hm0
      simpa using this
    have hdis1 : ¬ (∀ m ∈ available, m.version ≠ version) := by
      intro hall
      exact hall m0 hm0mem hm0ver
    by_cases h2 : (match existing with
        | some existing => version_lt version existing.version
        | none => false) = true
    · rw [if_pos h2]
      refine iff_of_true ⟨_, rfl⟩ (Or.inr (Or.inl ?_))
      cases existing with
      | none => simp at h2
      | some ex =>
        exact ⟨ex, rfl, (version_lt_iff _ _).mp h2⟩
    · rw [if_neg h2]
      have hdis2 : ¬ (∃ b, existing = some b ∧ version < b.version) := by
        rintro ⟨b, hbe, hblt⟩
        subst hbe
        exact h2 ((version_lt_iff _ _).mpr hblt)
      cases hf : firstUnapplied version available applied with
      | some m =>
        refine iff_of_true ⟨_, rfl⟩ (Or.inr (Or.inr ?_))
        have hmem : m ∈ available := List.mem_of_find?_eq_some hf
        have hp := List.find?_some hf
        simp only [Bool.and_eq_true, Bool.not_eq_true'] at hp
        refine ⟨m, hmem, (version_lte_iff _ _).mp hp.1, ?_⟩
        intro a ha hcontra
        have : applied.any (fun a => a.id == m.id) = true :=
          List.any_eq_true.mpr ⟨a, ha, by simp [hcontra]⟩
        rw [hp.2] at this
        exact Bool.false_ne_true this
      | none =>
        refine iff_of_false ?_ ?_
        · rintro ⟨e, he⟩
          exact Except.noConfusion he
        · rintro (h | h | h)
          · exact hdis1 h
          · exact hdis2 h
          · obtain ⟨m, hmem, hle, hids⟩ := h
            have := List.find?_eq_none.mp hf m hmem
            simp only [Bool.and_eq_true, Bool.not_eq_true', not_and] at this
            have hlte : version_lte m.version version = true :=
              (version_lte_iff _ _).mpr hle
            have hany : applied.any (fun a => a.id == m.id) ≠ false :=
              this hlte
            have : applied.any (fun a => a.id == m.id) = true := by
              cases hcase : applied.any (fun a => a.id == m.id) with
              | false => exact absurd hcase hany
              | true => rfl
            obtain ⟨a, ha, hid⟩ := List.any_eq_true.mp this
            exact hids a ha (by simpa using hid)

/- ===== line machinery lemmas ===== -/

/-- Dropping leading whitespace is the identity when the head is not
whitespace. -/
theorem dropWhile_ws_eq_self (l : List Char)
    (h : ∀ c, l.head? = some c → Char.isWhitespace c = false) :
    l.dropWhile Char.isWhitespace = l := by
  cases l with
  | nil => rfl
  | cons c r => simp [List.dropWhile_cons, h c rfl]

/-- Trailing trim is the identity when the last character is not
whitespace. -/
theorem trimEndL_eq_self (l : List Char)
    (h : ∀ c, l.getLast? = some c → Char.isWhitespace c = false) :
    trimEndL l = l := by
  unfold trimEndL
  rw [dropWhile_ws_eq_self]
  · exact List.reverse_reverse l
  · intro c hc
    exact h c (by rwa [List.head?_reverse] at hc)

/-- Trim is the identity when neither end is whitespace. -/
theorem trimL_eq_self (l : List Char)
    (hh : ∀ c, l.head? = some c → Char.isWhitespace c = false)
    (hl : ∀ c, l.getLast? = some c → Char.isWhitespace c = false) :
    trimL l = l := by
  unfold trimL trimStartL
  rw [dropWhile_ws_eq_self l hh]
  exact trimEndL_eq_self l hl

/-- Trim eats a leading whitespace character. -/
theorem trimL_cons_ws (c : Char) (l : List Char)
    (h : Char.isWhitespace c = true) : trimL (c :: l) = trimL l := by
  unfold trimL trimStartL
  simp [List.dropWhile_cons, h]

/-- Trailing trim never lengthens. -/
theorem length_trimEndL_le (l : List Char) : (trimEndL l).length ≤ l.length := by
  unfold trimEndL
  calc (List.dropWhile Char.isWhitespace l.reverse).reverse.length
      = (List.dropWhile Char.isWhitespace l.reverse).length :=
        List.length_reverse _
    _ ≤ l.reverse.length := (List.dropWhile_suffix _).length_le
    _ = l.length := List.length_reverse _


/-- The last element of an append with a nonempty right part. -/
theorem getLast?_append_right (l1 l2 : List Char) (h : l2 ≠ []) :
    (l1 ++ l2).getLast? = l2.getLast? := by
  cases l2 with
  | nil => exact absurd rfl h
  | cons x xs =>
    cases h2 : (x :: xs).getLast? with
    | none => simp [List.getLast?_cons] at h2
    | some y => rw [List.getLast?_append, h2]; rfl

/-- A trim-invariant list does not end in whitespace. -/
theorem trimL_fix_getLast (l : List Char) (h : trimL l = l) :
    ∀ c, l.getLast? = some c → Char.isWhitespace c = false := by
  intro c hc
  cases hcase : Char.isWhitespace c with
  | false => rfl
  | true =>
    exfalso
    have hlnil : l ≠ [] := by
      intro he
      rw [he] at hc
      simp at hc
    have hsuf := List.dropWhile_suffix (l := l) Char.isWhitespace
    have hlen1 : (trimStartL l).length ≤ l.length := hsuf.length_le
    cases hts : trimStartL l with
    | nil =>
      rw [show trimL l = trimEndL (trimStartL l) from rfl, hts] at h
      exact hlnil (h.symm.trans (by simp [trimEndL]))
    | cons x xs =>
      obtain ⟨pre, hpre⟩ := hsuf
      have hts2 : List.dropWhile Char.isWhitespace l = x :: xs := hts
      have hlast : (x :: xs).getLast? = some c := by
        rw [← hpre, hts2, getLast?_append_right pre (x :: xs) (by simp)]
          at hc
        exact hc
      have hrevhead : (x :: xs).reverse.head? = some c := by
        rw [List.head?_reverse]
        exact hlast
      have hlt : (trimEndL (x :: xs)).length < (x :: xs).length := by
        unfold trimEndL
        cases hrev : (x :: xs).reverse with
        | nil => simp at hrev
        | cons d dr =>
          rw [hrev] at hrevhead
          simp only [List.head?_cons, Option.some.injEq] at hrevhead
          subst hrevhead
          rw [List.dropWhile_cons, if_pos hcase]
          have h1 : (List.dropWhile Char.isWhitespace dr).length ≤ dr.length :=
            (List.dropWhile_suffix _).length_le
          have h2 : dr.length + 1 = (x :: xs).length := by
            have := congrArg List.length hrev
            simpa [List.length_reverse] using this.symm
          simp only [List.length_reverse]
          omega
      rw [show trimL l = trimEndL (trimStartL l) from rfl, hts] at h
      have := congrArg List.length h
      rw [hts] at hlen1
      omega

/-- A space-free line produces a single `splitn` piece. -/
theorem splitn2Space_no_space (l : List Char) (h : ' ' ∉ l) :
    splitn2Space l = none := by
  induction l with
  | nil => rfl
  | cons c r ih =>
    have hc : c ≠ ' ' := fun he => h (he ▸ List.mem_cons_self c r)
    have hr : ' ' ∉ r := fun hm => h (List.mem_cons_of_mem c hm)
    simp [splitn2Space, hc, ih hr]

/-- Lemma: `splitn(2, ' ')` splits at the first space. -/
theorem splitn2Space_first (a b : List Char) (h : ' ' ∉ a) :
    splitn2Space (a ++ ' ' :: b) = some (a, b) := by
  induction a with
  | nil => simp [splitn2Space]
  | cons c r ih =>
    have hc : c ≠ ' ' := fun he => h (he ▸ List.mem_cons_self c r)
    have hr : ' ' ∉ r := fun hm => h (List.mem_cons_of_mem c hm)
    simp [splitn2Space, hc, ih hr]

/-- Splitting always yields at least one piece. -/
theorem splitOnChar_ne_nil (sep : Char) (l : List Char) :
    splitOnChar sep l ≠ [] := by
  cases l with
  | nil => simp [splitOnChar]
  | cons c r =>
    by_cases hc : c = sep
    · simp [splitOnChar, hc]
    · simp only [splitOnChar, hc, if_false]
      cases splitOnChar sep r with
      | nil => simp
      | cons p ps => simp

/-- A separator-free list is one piece. -/
theorem splitOnChar_no_sep (sep : Char) (a : List Char) (h : sep ∉ a) :
    splitOnChar sep a = [a] := by
  induction a with
  | nil => rfl
  | cons c r ih =>
    have hc : c ≠ sep := fun he => h (he ▸ List.mem_cons_self c r)
    have hr : sep ∉ r := fun hm => h (List.mem_cons_of_mem c hm)
    simp [splitOnChar, hc, ih hr]

/-- Splitting at the first separator. -/
theorem splitOnChar_append_sep (sep : Char) (a b : List Char)
    (h : sep ∉ a) :
    splitOnChar sep (a ++ sep :: b) = a :: splitOnChar sep b := by
  induction a with
  | nil => simp [splitOnChar]
  | cons c r ih =>
    have hc : c ≠ sep := fun he => h (he ▸ List.mem_cons_self c r)
    have hr : sep ∉ r := fun hm => h (List.mem_cons_of_mem c hm)
    rw [List.cons_append]
    simp only [splitOnChar, hc, if_false]
    rw [ih hr]

/-- Every piece of a split is separator-free. -/
theorem splitOnChar_pieces_no_sep (sep : Char) :
    ∀ (l : List Char), ∀ p ∈ splitOnChar sep l, sep ∉ p := by
  intro l
  induction l with
  | nil =>
    intro p hp
    simp [splitOnChar] at hp
    simp [hp]
  | cons c r ih =>
    intro p hp
    by_cases hc : c = sep
    · simp only [splitOnChar, hc, if_pos rfl] at hp
      rcases List.mem_cons.mp hp with h1 | h1
      · simp [h1]
      · exact ih p h1
    · simp only [splitOnChar, hc, if_false] at hp
      cases hsp : splitOnChar sep r with
      | nil => exact absurd hsp (splitOnChar_ne_nil sep r)
      | cons q qs =>
        rw [hsp] at hp
        rcases List.mem_cons.mp hp with h1 | h1
        · subst h1
          intro hmem
          rcases List.mem_cons.mp hmem with h2 | h2
          · exact hc h2.symm
          · exact ih q (hsp ▸ List.mem_cons_self q qs) h2
        · exact ih p (hsp ▸ List.mem_cons_of_mem q h1)

/-- Every character of a piece occurs in the split input. -/
theorem splitOnChar_pieces_subset (sep : Char) :
    ∀ (l : List Char), ∀ p ∈ splitOnChar sep l, ∀ c ∈ p, c ∈ l := by
  intro l
  induction l with
  | nil =>
    intro p hp c hc
    simp [splitOnChar] at hp
    subst hp
    simp at hc
  | cons d r ih =>
    intro p hp c hc
    by_cases hd : d = sep
    · simp only [splitOnChar, hd, if_pos rfl] at hp
      rcases List.mem_cons.mp hp with h1 | h1
      · subst h1; simp at hc
      · exact List.mem_cons_of_mem d (ih p h1 c hc)
    · simp only [splitOnChar, hd, if_false] at hp
      cases hsp : splitOnChar sep r with
      | nil => exact absurd hsp (splitOnChar_ne_nil sep r)
      | cons q qs =>
        rw [hsp] at hp
        rcases List.mem_cons.mp hp with h1 | h1
        · subst h1
          rcases List.mem_cons.mp hc with h2 | h2
          · exact h2 ▸ List.mem_cons_self d r
          · exact List.mem_cons_of_mem d
              (ih q (hsp ▸ List.mem_cons_self q qs) c h2)
        · exact List.mem_cons_of_mem d
            (ih p (hsp ▸ List.mem_cons_of_mem q h1) c hc)

/-- Lemma: `stripCR` is the identity when the line does not end in `'\r'`. -/
theorem stripCR_eq_self (l : List Char) (h : l.getLast? ≠ some '\r') :
    stripCR l = l := by
  unfold stripCR
  rw [if_neg h]

/-- Lemma: `joinLines` of a snoc. -/
theorem joinLines_append_single (ls : List (List Char)) (l : List Char) :
    joinLines (ls ++ [l]) = joinLines ls ++ (l ++ ['\n']) := by
  induction ls with
  | nil => simp [joinLines]
  | cons x xs ih =>
    simp only [List.cons_append, joinLines, List.foldr_cons] at ih ⊢
    rw [ih]
    simp [List.append_assoc]

/-- Peeling one newline-terminated line off the front of a file. -/
theorem rustLines_cons_line (l : List Char) (rest : List Char)
    (h : '\n' ∉ l) :
    rustLines (l ++ '\n' :: rest) = stripCR l :: rustLines rest := by
  unfold rustLines splitNL
  rw [splitOnChar_append_sep '\n' l rest h]
  cases hsp : splitOnChar '\n' rest with
  | nil => exact absurd hsp (splitOnChar_ne_nil '\n' rest)
  | cons q qs =>
    rw [List.getLast?_cons_cons]
    by_cases hlast : (q :: qs).getLast? = some []
    · rw [if_pos hlast, if_pos hlast, List.dropLast_cons₂, List.map_cons]
    · rw [if_neg hlast, if_neg hlast, List.map_cons]

/-- Reading a newline-terminated line list back from its file contents. -/
theorem rustLines_joinLines (ls : List (List Char))
    (h : ∀ l ∈ ls, '\n' ∉ l) :
    rustLines (joinLines ls) = ls.map stripCR := by
  induction ls with
  | nil => rfl
  | cons l ls ih =>
    have hstep : joinLines (l :: ls) = l ++ '\n' :: joinLines ls := rfl
    rw [hstep, rustLines_cons_line l (joinLines ls)
      (h l (List.mem_cons_self l ls)), List.map_cons,
      ih (fun x hx => h x (List.mem_cons_of_mem l hx))]

/-- Lemma: `join("\n")` undoes newline splitting. -/
theorem interNL_splitNL (x : List Char) : interNL (splitNL x) = x := by
  induction x with
  | nil => rfl
  | cons c r ih =>
    by_cases hc : c = '\n'
    · subst hc
      show interNL ([] :: splitOnChar '\n' r) = '\n' :: r
      cases hsp : splitOnChar '\n' r with
      | nil => exact absurd hsp (splitOnChar_ne_nil '\n' r)
      | cons q qs =>
        show [] ++ '\n' :: interNL (q :: qs) = '\n' :: r
        rw [← hsp]
        show '\n' :: interNL (splitNL r) = '\n' :: r
        rw [ih]
    · show interNL (splitOnChar '\n' (c :: r)) = c :: r
      simp only [splitOnChar, hc, if_false]
      cases hsp : splitOnChar '\n' r with
      | nil => exact absurd hsp (splitOnChar_ne_nil '\n' r)
      | cons q qs =>
        cases qs with
        | nil =>
          show c :: q = c :: r
          have : interNL (splitNL r) = r := ih
          rw [show splitNL r = [q] from hsp] at this
          rw [show interNL [q] = q from rfl] at this
          rw [this]
        | cons q2 qs2 =>
          show (c :: q) ++ '\n' :: interNL (q2 :: qs2) = c :: r
          have : interNL (splitNL r) = r := ih
          rw [show splitNL r = q :: q2 :: qs2 from hsp] at this
          rw [show interNL (q :: q2 :: qs2)
            = q ++ '\n' :: interNL (q2 :: qs2) from rfl] at this
          rw [List.cons_append, this]

/-- The trailing piece of a split is empty only for an empty input or a
trailing newline. -/
theorem splitNL_getLast_ne (x : List Char) (hx : x ≠ [])
    (h : x.getLast? ≠ some '\n') : (splitNL x).getLast? ≠ some [] := by
  induction x with
  | nil => exact absurd rfl hx
  | cons c r ih =>
    by_cases hc : c = '\n'
    · subst hc
      cases r with
      | nil => simp at h
      | cons d dr =>
        show (([] :: splitNL (d :: dr))).getLast? ≠ some []
        cases hsp : splitNL (d :: dr) with
        | nil => exact absurd hsp (splitOnChar_ne_nil '\n' (d :: dr))
        | cons q qs =>
          rw [List.getLast?_cons_cons]
          rw [← hsp]
          exact ih (by simp) (by
            rw [List.getLast?_cons_cons] at h
            exact h)
    · show ((splitOnChar '\n' (c :: r))).getLast? ≠ some []
      simp only [splitOnChar, hc, if_false]
      cases hsp : splitOnChar '\n' r with
      | nil => exact absurd hsp (splitOnChar_ne_nil '\n' r)
      | cons q qs =>
        cases qs with
        | nil => simp
        | cons q2 qs2 =>
          rw [List.getLast?_cons_cons]
          cases r with
          | nil => simp [splitOnChar] at hsp
          | cons d dr =>
            rw [show splitNL (d :: dr) = q :: q2 :: qs2 from hsp] at ih
            have := ih (by simp) (by
              rw [List.getLast?_cons_cons] at h
              exact h)
            rw [List.getLast?_cons_cons] at this
            exact this

/- ===== rfc3339 lemmas ===== -/

/-- Reading back a rendered decimal digit. -/
theorem readDigit?_decDigit (n : Nat) :
    readDigit? (decDigit n) = some (n % 10) := by
  have h : ∀ k, k < 10 → readDigit? (Char.ofNat (48 + k)) = some k := by
    decide
  exact h (n % 10) (Nat.mod_lt n (by omega))

/-- Rendered digits are never whitespace. -/
theorem decDigit_not_ws (n : Nat) :
    Char.isWhitespace (decDigit n) = false := by
  have h : ∀ k, k < 10 → Char.isWhitespace (Char.ofNat (48 + k)) = false := by
    decide
  exact h (n % 10) (Nat.mod_lt n (by omega))

/-- Rendered digits are not newlines. -/
theorem decDigit_ne_nl (n : Nat) : ('\n' : Char) ≠ decDigit n := by
  have h : ∀ k, k < 10 → ('\n' : Char) ≠ Char.ofNat (48 + k) := by decide
  exact h (n % 10) (Nat.mod_lt n (by omega))

/-- Reading back a two-digit zero-padded number. -/
theorem read2?_pad2 (n : Nat) (h : n < 100) (r : List Char) :
    read2? (pad2 n ++ r) = some (n, r) := by
  show read2? (decDigit (n / 10) :: decDigit n :: r) = some (n, r)
  simp only [read2?, readDigit?_decDigit]
  have e1 : n / 10 % 10 = n / 10 := Nat.mod_eq_of_lt (by omega)
  have : n / 10 % 10 * 10 + n % 10 = n := by omega
  rw [this]

/-- Reading back a four-digit zero-padded number. -/
theorem read4?_pad4 (n : Nat) (h : n < 10000) (r : List Char) :
    read4? (pad4 n ++ r) = some (n, r) := by
  show read4? (decDigit (n / 1000) :: decDigit (n / 100) ::
    decDigit (n / 10) :: decDigit n :: r) = some (n, r)
  simp only [read4?, readDigit?_decDigit]
  have : ((n / 1000 % 10 * 10 + n / 100 % 10) * 10 + n / 10 % 10) * 10 +
      n % 10 = n := by omega
  rw [this]

/-- Consuming an expected literal character. -/
theorem expectChar_cons (c : Char) (r : List Char) :
    expectChar c (c :: r) = some r := by
  simp [expectChar]

/-- Bounds packaged by `validDT`. -/
theorem validDT_bounds (t : DateTimeUtc) (h : validDT t = true) :
    t.year < 10000 ∧ t.month < 100 ∧ t.day < 100 ∧ t.hour < 100 ∧
    t.minute < 100 ∧ t.second < 100 := by
  have hdm : daysInMonth t.year t.month ≤ 31 := by
    unfold daysInMonth
    split_ifs <;> omega
  simp only [validDT, Bool.and_eq_true, Nat.ble_eq, Nat.blt_eq] at h
  omega

/-- Round-trip: parsing a rendered valid timestamp restores it. -/
theorem rfc3339_roundtrip (t : DateTimeUtc) (h : validDT t = true) :
    rfc3339Parse? (rfc3339Render t) = some t := by
  obtain ⟨hy, hmo, hd, hh, hmi, hs⟩ := validDT_bounds t h
  unfold rfc3339Parse?
  rw [show (rfc3339Render t).data =
    pad4 t.year ++ ('-' :: (pad2 t.month ++ ('-' :: (pad2 t.day ++
    ('T' :: (pad2 t.hour ++ (':' :: (pad2 t.minute ++ (':' ::
    (pad2 t.second ++ ['+', '0', '0', ':', '0', '0'])))))))))) from rfl]
  rw [read4?_pad4 t.year hy]
  simp only [expectChar_cons, read2?_pad2 t.month hmo, read2?_pad2 t.day hd,
    read2?_pad2 t.hour hh, read2?_pad2 t.minute hmi, read2?_pad2 t.second hs]
  show (if offsetOk ['+', '0', '0', ':', '0', '0'] = true then
    (if validDT ⟨t.year, t.month, t.day, t.hour, t.minute, t.second⟩ = true
     then some ⟨t.year, t.month, t.day, t.hour, t.minute, t.second⟩
     else none) else none) = some t
  rw [if_pos (show offsetOk ['+', '0', '0', ':', '0', '0'] = true from rfl),
    if_pos (show validDT
      ⟨t.year, t.month, t.day, t.hour, t.minute, t.second⟩ = true from h)]

/-- Lemma: `String.mk` then `.data` is the identity on character lists. -/
theorem mk_data_eq (l : List Char) : (String.mk l).data = l := rfl

/-- Lemma: `.data` then `String.mk` is the identity on strings. -/
theorem data_mk_eq (s : String) : String.mk s.data = s := rfl

/-- Newlines never occur in a two-digit rendering. -/
theorem nl_notin_pad2 (n : Nat) : '\n' ∉ pad2 n := by
  simp only [pad2, List.mem_cons, List.not_mem_nil, or_false, not_or]
  exact ⟨decDigit_ne_nl _, decDigit_ne_nl _⟩

/-- Newlines never occur in a four-digit rendering. -/
theorem nl_notin_pad4 (n : Nat) : '\n' ∉ pad4 n := by
  simp only [pad4, List.mem_cons, List.not_mem_nil, or_false, not_or]
  exact ⟨decDigit_ne_nl _, decDigit_ne_nl _, decDigit_ne_nl _,
    decDigit_ne_nl _⟩

/-- Newlines never occur in a rendered timestamp. -/
theorem nl_notin_render (t : DateTimeUtc) :
    '\n' ∉ (rfc3339Render t).data := by
  simp only [rfc3339Render, mk_data_eq, List.mem_append, List.mem_cons,
    not_or]
  refine ⟨nl_notin_pad4 _, by decide, nl_notin_pad2 _, by decide,
    nl_notin_pad2 _, by decide, nl_notin_pad2 _, by decide,
    nl_notin_pad2 _, by decide, nl_notin_pad2 _, by decide⟩

/-- A rendered timestamp is nonempty. -/
theorem render_ne_nil (t : DateTimeUtc) : (rfc3339Render t).data ≠ [] := by
  simp [rfc3339Render, mk_data_eq, pad4]

/-- A rendered timestamp starts with a digit character. -/
theorem render_head (t : DateTimeUtc) :
    (rfc3339Render t).data.head? = some (decDigit (t.year / 1000)) := rfl

/-- A rendered timestamp ends with the character `'0'`. -/
theorem render_getLast (t : DateTimeUtc) :
    (rfc3339Render t).data.getLast? = some '0' := by
  have he : (rfc3339Render t).data =
      (pad4 t.year ++ '-' :: pad2 t.month ++ '-' :: pad2 t.day ++
       'T' :: pad2 t.hour ++ ':' :: pad2 t.minute ++ ':' :: pad2 t.second)
      ++ ['+', '0', '0', ':', '0', '0'] := by
    simp [rfc3339Render, mk_data_eq, List.append_assoc]
  rw [he, getLast?_append_right _ _ (by simp)]
  rfl

/-- A trimmed rendered timestamp is itself: it has no whitespace at
either end. -/
theorem trimL_render (t : DateTimeUtc) :
    trimL (rfc3339Render t).data = (rfc3339Render t).data := by
  apply trimL_eq_self
  · intro c hc
    rw [render_head] at hc
    cases hc
    exact decDigit_not_ws _
  · intro c hc
    rw [render_getLast] at hc
    cases hc
    rfl

/- ===== claim theorems: history reading (C7) ===== -/

/-- A line whose trimmed form has no space (including blank lines) is
skipped. -/
theorem historyStep_no_space (acc : List AppliedMigration)
    (line : List Char) (h : ' ' ∉ trimL line) :
    historyStep acc line = .ok acc := by
  unfold historyStep
  by_cases he : (trimL line).isEmpty
  · rw [if_pos he]
  · rw [if_neg he, splitn2Space_no_space _ h]

/-- A line that splits at a first space is parsed. -/
theorem historyStep_two_parts (acc : List AppliedMigration)
    (line i ts : List Char)
    (h : splitn2Space (trimL line) = some (i, ts)) :
    historyStep acc line =
      (match rfc3339Parse? (String.mk ts) with
       | none =>
         .error ("Invalid timestamp in history file: " ++ String.mk ts)
       | some dt => .ok (acc ++ [⟨String.mk i, dt⟩])) := by
  unfold historyStep
  have hne : ¬ (trimL line).isEmpty = true := by
    cases htl : trimL line with
    | nil => rw [htl] at h; exact absurd h (by simp [splitn2Space])
    | cons c r => simp
  rw [if_neg hne, h]

/-- C7 (amended): per-line behaviour of `read_history` - a line whose
trimmed form contains no space at all (one token, or blank) is skipped
without error and reading continues with the prior records intact;
a line containing a space is split at its *first* space only (the
remainder, further spaces included, is the timestamp token), and
reading fails with a parse error naming that remainder exactly when it
is not a valid RFC3339 timestamp, otherwise appends the record and
continues.  (The claim as frozen instead says every line that does not
split into exactly two space-separated tokens is skipped; a line with
three tokens refutes that - see the counterexample.) -/
theorem read_history_line_behaviour (acc : List AppliedMigration)
    (line : List Char) (rest : List (List Char)) :
    (' ' ∉ trimL line →
      readHistoryLines (line :: rest) acc = readHistoryLines rest acc) ∧
    (∀ i ts, splitn2Space (trimL line) = some (i, ts) →
      (rfc3339Parse? (String.mk ts) = none →
        readHistoryLines (line :: rest) acc =
          .error ("Invalid timestamp in history file: " ++ String.mk ts)) ∧
      (∀ dt, rfc3339Parse? (String.mk ts) = some dt →
        readHistoryLines (line :: rest) acc =
          readHistoryLines rest (acc ++ [⟨String.mk i, dt⟩]))) := by
  refine ⟨?_, ?_⟩
  · intro h
    show (match historyStep acc line with
      | .ok acc2 => readHistoryLines rest acc2
      | .error e => .error e) = readHistoryLines rest acc
    rw [historyStep_no_space acc line h]
  · intro i ts hsplit
    refine ⟨?_, ?_⟩
    · intro hparse
      show (match historyStep acc line with
        | .ok acc2 => readHistoryLines rest acc2
        | .error e => .error e) = _
      rw [historyStep_two_parts acc line i ts hsplit, hparse]
    · intro dt hparse
      show (match historyStep acc line with
        | .ok acc2 => readHistoryLines rest acc2
        | .error e => .error e) = _
      rw [historyStep_two_parts acc line i ts hsplit, hparse]

/-- C7 witness: a one-token line is skipped; a well-formed line appends
its record and reading continues. -/
theorem read_history_line_behaviour_witness :
    readHistoryLines ["plain".data] ([] : List AppliedMigration) =
      readHistoryLines [] [] ∧
    readHistoryLines ["a 2024-06-15T14:30:00Z".data]
        ([] : List AppliedMigration) =
      readHistoryLines [] ([] ++ [⟨"a", dt2024⟩]) :=
  ⟨(read_history_line_behaviour [] "plain".data []).1 (by decide),
   ((read_history_line_behaviour [] "a 2024-06-15T14:30:00Z".data []).2
     "a".data "2024-06-15T14:30:00Z".data (by decide)).2 dt2024 (by decide)⟩

/-- C7 counterexample: the line `bad b c` has three space-separated
tokens, so by the claim it should be skipped and the prior valid record
returned; instead `read_history` splits it at the first space only and
fails on the remainder `b c` as a malformed timestamp.  (Without the
offending line the prior record is returned fine.) -/
theorem read_history_multitoken_cx :
    (splitOnChar ' ' "bad b c".data).length = 3 ∧
    read_history "ok 2024-06-15T14:30:00+00:00\nbad b c" =
      .error ("Invalid timestamp in history file: b c") ∧
    read_history "ok 2024-06-15T14:30:00+00:00" =
      .ok [⟨"ok", ⟨2024, 6, 15, 14, 30, 0⟩⟩] := by decide

/- ===== claim theorems: history append round-trip (C10) ===== -/

/-- The head of an append with a nonempty left part. -/
theorem head?_append_left (l1 l2 : List Char) (h : l1 ≠ []) :
    (l1 ++ l2).head? = l1.head? := by
  cases l1 with
  | nil => exact absurd rfl h
  | cons c r => rfl

/-- Processing a prefix of lines that reads cleanly, then the rest. -/
theorem readHistoryLines_append_ok :
    ∀ (A B : List (List Char)) (acc acc2 : List AppliedMigration),
    readHistoryLines A acc = .ok acc2 →
    readHistoryLines (A ++ B) acc = readHistoryLines B acc2 := by
  intro A
  induction A with
  | nil =>
    intro B acc acc2 h
    injection h with h2
    subst h2
    rfl
  | cons l ls ih =>
    intro B acc acc2 h
    have hu : readHistoryLines (l :: ls) acc =
        (match historyStep acc l with
         | .ok a2 => readHistoryLines ls a2
         | .error e => .error e) := rfl
    cases hst : historyStep acc l with
    | ok a2 =>
      have h2 : readHistoryLines ls a2 = .ok acc2 := by
        rw [hu, hst] at h
        exact h
      show (match historyStep acc l with
        | .ok a2 => readHistoryLines (ls ++ B) a2
        | .error e => .error e) = readHistoryLines B acc2
      rw [hst]
      exact ih B a2 acc2 h2
    | error e =>
      rw [hu, hst] at h
      exact Except.noConfusion h

/-- C10 (amended): appending a record for a *nonempty* id that contains
no space or newline and does not start with a whitespace character,
onto history contents made of newline-terminated lines, yields the
previously readable records followed by one record with that id and a
timestamp denoting the same instant.  (The claim as frozen allows any
space-free and newline-free id and any prior contents; the empty id is
silently lost and an id containing a space makes the subsequent read
fail with a parse error rather than being truncated - see the
counterexample.) -/
theorem append_read_history (ls : List (List Char))
    (hls : ∀ l ∈ ls, '\n' ∉ l) (recs : List AppliedMigration)
    (id : String) (dt : DateTimeUtc)
    (hok : read_history (String.mk (joinLines ls)) = .ok recs)
    (hid0 : id.data ≠ [])
    (hsp : ' ' ∉ id.data) (hnl : '\n' ∉ id.data)
    (hhead : ∀ c, id.data.head? = some c → Char.isWhitespace c = false)
    (hdt : validDT dt = true) :
    read_history (append_history (String.mk (joinLines ls)) id dt) =
      .ok (recs ++ [⟨id, dt⟩]) := by
  have hdata : (append_history (String.mk (joinLines ls)) id dt).data =
      joinLines (ls ++ [id.data ++ ' ' :: (rfc3339Render dt).data]) := by
    simp only [append_history, String.data_append, mk_data_eq,
      joinLines_append_single]
    simp [List.append_assoc]
  have hlinenl : '\n' ∉ id.data ++ ' ' :: (rfc3339Render dt).data := by
    intro hmem
    rcases List.mem_append.mp hmem with hmem | hmem
    · exact hnl hmem
    · rcases List.mem_cons.mp hmem with hmem | hmem
      · exact absurd hmem (by decide)
      · exact nl_notin_render dt hmem
  have hlast0 : (id.data ++ ' ' :: (rfc3339Render dt).data).getLast? =
      some '0' := by
    rw [getLast?_append_right _ _ (by simp),
      show (' ' :: (rfc3339Render dt).data) = [' '] ++
        (rfc3339Render dt).data from rfl,
      getLast?_append_right _ _ (render_ne_nil dt)]
    exact render_getLast dt
  have htrim : trimL (id.data ++ ' ' :: (rfc3339Render dt).data) =
      id.data ++ ' ' :: (rfc3339Render dt).data := by
    apply trimL_eq_self
    · intro c hc
      rw [head?_append_left _ _ hid0] at hc
      exact hhead c hc
    · intro c hc
      rw [hlast0] at hc
      cases hc
      rfl
  show readHistoryLines
    (rustLines (append_history (String.mk (joinLines ls)) id dt).data) [] =
    .ok (recs ++ [⟨id, dt⟩])
  rw [hdata, rustLines_joinLines (ls ++ [_]) ?hnlall]
  case hnlall =>
    intro l hl
    rcases List.mem_append.mp hl with hl | hl
    · exact hls l hl
    · rcases List.mem_singleton.mp hl with rfl
      exact hlinenl
  rw [List.map_append]
  have hok2 : readHistoryLines (ls.map stripCR) [] = .ok recs := by
    have := hok
    rw [show read_history (String.mk (joinLines ls)) =
      readHistoryLines (rustLines (joinLines ls)) [] from rfl,
      rustLines_joinLines ls hls] at this
    exact this
  rw [readHistoryLines_append_ok (ls.map stripCR) _ [] recs hok2]
  have hstrip : stripCR (id.data ++ ' ' :: (rfc3339Render dt).data) =
      id.data ++ ' ' :: (rfc3339Render dt).data := by
    apply stripCR_eq_self
    rw [hlast0]
    decide
  rw [List.map_singleton, hstrip]
  show (match historyStep recs (id.data ++ ' ' :: (rfc3339Render dt).data)
    with
    | .ok acc2 => readHistoryLines [] acc2
    | .error e => .error e) = .ok (recs ++ [⟨id, dt⟩])
  rw [historyStep_two_parts recs _ id.data (rfc3339Render dt).data
    (by rw [htrim]; exact splitn2Space_first id.data _ hsp)]
  rw [show String.mk (rfc3339Render dt).data = rfc3339Render dt from rfl]
  rw [rfc3339_roundtrip dt hdt]
  rfl

/-- C10 witness: appending `00001-a` to empty history reads back as the
single expected record. -/
theorem append_read_history_witness :
    read_history (append_history (String.mk (joinLines [])) "00001-a"
      dt2024) = .ok ([] ++ [⟨"00001-a", dt2024⟩]) :=
  append_read_history [] (by simp) [] "00001-a" dt2024 (by decide)
    (by decide) (by decide) (by decide)
    (by
      intro c hc
      rw [show ("00001-a" : String).data.head? = some '0' from rfl] at hc
      cases hc
      rfl)
    (by decide)

/-- C10 counterexample: the empty id (which contains no space and no
newline) is silently lost - the appended record does not read back -
and an id containing a space does not read back truncated: the whole
read fails with a timestamp parse error. -/
theorem append_read_history_cx :
    read_history (append_history "" "" dt2024) = .ok [] ∧
    (Except.ok ([] : List AppliedMigration) :
      Except String (List AppliedMigration)) ≠ .ok [⟨"", dt2024⟩] ∧
    read_history (append_history "" "a b" dt2024) =
      .error
        ("Invalid timestamp in history file: b 2024-06-15T14:30:00+00:00")
    := by decide

/- ===== baseline round-trip lemmas (C9) ===== -/

/-- Lemma: `strip_prefix` succeeds on its own literal. -/
theorem dropPre?_append : ∀ (p l : List Char), dropPre? p (p ++ l) = some l := by
  intro p
  induction p with
  | nil => intro l; simp [dropPre?]
  | cons c ps ih => intro l; simp [dropPre?, ih]

/-- Mapping a function that fixes every element is the identity. -/
theorem map_eq_self_of {α : Type} (f : α → α) :
    ∀ (l : List α), (∀ a ∈ l, f a = a) → l.map f = l := by
  intro l
  induction l with
  | nil => intro _; rfl
  | cons x xs ih =>
    intro h
    rw [List.map_cons, h x (List.mem_cons_self x xs),
      ih (fun a ha => h a (List.mem_cons_of_mem x ha))]

/-- The last element of a list is a member. -/
theorem getLast?_mem : ∀ (l : List Char) (a : Char),
    l.getLast? = some a → a ∈ l := by
  intro l
  induction l with
  | nil => intro a h; simp at h
  | cons c r ih =>
    intro a h
    cases r with
    | nil =>
      simp only [List.getLast?_singleton, Option.some.injEq] at h
      simp [h]
    | cons d dr =>
      rw [List.getLast?_cons_cons] at h
      exact List.mem_cons_of_mem c (ih a h)

/-- An end-trim-invariant list does not end in whitespace. -/
theorem trimEndL_fix_getLast (l : List Char) (h : trimEndL l = l) :
    ∀ c, l.getLast? = some c → Char.isWhitespace c = false := by
  intro c hc
  cases hcase : Char.isWhitespace c with
  | false => rfl
  | true =>
    exfalso
    have hrev : l.reverse.head? = some c := by
      rw [List.head?_reverse]; exact hc
    cases hrevc : l.reverse with
    | nil => rw [hrevc] at hrev; simp at hrev
    | cons d dr =>
      rw [hrevc] at hrev
      simp only [List.head?_cons, Option.some.injEq] at hrev
      subst hrev
      have h1 : (trimEndL l).length < l.length := by
        unfold trimEndL
        rw [hrevc, List.dropWhile_cons, if_pos hcase]
        have h2 : (List.dropWhile Char.isWhitespace dr).length ≤ dr.length :=
          (List.dropWhile_suffix _).length_le
        have h3 : dr.length + 1 = l.length := by
          have := congrArg List.length hrevc
          simpa [List.length_reverse] using this.symm
        simp only [List.length_reverse]
        omega
      rw [h] at h1
      omega

/-- Lemma: `rustLines` output lines never contain newlines. -/
theorem nl_notin_rustLines (x : List Char) :
    ∀ l ∈ rustLines x, '\n' ∉ l := by
  intro l hl
  unfold rustLines at hl
  obtain ⟨p, hp, hfp⟩ := List.mem_map.mp hl
  have hpX : p ∈ splitNL x := by
    by_cases hcond : (splitNL x).getLast? = some []
    · rw [if_pos hcond] at hp
      exact (List.dropLast_sublist _).mem hp
    · rw [if_neg hcond] at hp
      exact hp
  have hnp : '\n' ∉ p := splitOnChar_pieces_no_sep '\n' x p hpX
  intro hmem
  apply hnp
  rw [← hfp] at hmem
  unfold stripCR at hmem
  by_cases hlast : p.getLast? = some '\r'
  · rw [if_pos hlast] at hmem
    exact (List.dropLast_sublist _).mem hmem
  · rw [if_neg hlast] at hmem
    exact hmem

/-- On nonempty input without trailing whitespace or any carriage
return, `rustLines` is exactly newline splitting. -/
theorem rustLines_of_clean (x : List Char) (hx : x ≠ [])
    (hlast : ∀ c, x.getLast? = some c → Char.isWhitespace c = false)
    (hcr : '\r' ∉ x) : rustLines x = splitNL x := by
  unfold rustLines
  have hnl : x.getLast? ≠ some '\n' := by
    intro hcontra
    exact absurd (hlast '\n' hcontra) (by decide)
  rw [if_neg (splitNL_getLast_ne x hx hnl)]
  apply map_eq_self_of
  intro p hp
  apply stripCR_eq_self
  intro hcontra
  exact hcr (splitOnChar_pieces_subset '\n' x p hp '\r'
    (getLast?_mem p '\r' hcontra))

/-- Evaluating `pbKeyValue` on a `version:` line. -/
theorem pbKeyValue_version (v : Option String) (c : Option DateTimeUtc)
    (su : Option String) (ins : Bool) (sl : List (List Char))
    (w : List Char) :
    pbKeyValue ⟨v, c, su, ins, sl⟩ ("version:".data ++ (' ' :: w)) =
      .ok ⟨some (String.mk (trimL w)), c, su, ins, sl⟩ := by
  unfold pbKeyValue
  rw [dropPre?_append]
  show Except.ok (⟨some (String.mk (trimL (' ' :: w))), c, su, ins, sl⟩ :
    PBAcc) = _
  rw [trimL_cons_ws ' ' w (by decide)]

/-- Evaluating `pbKeyValue` on a `created:` line carrying a rendered
valid timestamp. -/
theorem pbKeyValue_created (v : Option String) (c : Option DateTimeUtc)
    (su : Option String) (ins : Bool) (sl : List (List Char))
    (t : DateTimeUtc) (h : validDT t = true) :
    pbKeyValue ⟨v, c, su, ins, sl⟩
      ("created:".data ++ (' ' :: (rfc3339Render t).data)) =
      .ok ⟨v, some t, su, ins, sl⟩ := by
  unfold pbKeyValue
  rw [show dropPre? "version:".data
    ("created:".data ++ (' ' :: (rfc3339Render t).data)) = none from rfl]
  rw [dropPre?_append]
  have htr : trimL (' ' :: (rfc3339Render t).data) =
      (rfc3339Render t).data := by
    rw [trimL_cons_ws _ _ (by decide)]
    exact trimL_render t
  show (match rfc3339Parse?
      (String.mk (trimL (' ' :: (rfc3339Render t).data))) with
    | none => Except.error ("Invalid timestamp in baseline: " ++
        String.mk (trimL (' ' :: (rfc3339Render t).data)))
    | some dt => Except.ok (⟨v, some dt, su, ins, sl⟩ : PBAcc)) = _
  rw [htr, show String.mk (rfc3339Render t).data = rfc3339Render t from rfl,
    rfc3339_roundtrip t h]

/-- Evaluating `pbKeyValue` on the `summary: |` header. -/
theorem pbKeyValue_summary_bar (v : Option String) (c : Option DateTimeUtc)
    (su : Option String) (ins : Bool) (sl : List (List Char)) :
    pbKeyValue ⟨v, c, su, ins, sl⟩ "summary: |".data =
      .ok ⟨v, c, su, true, sl⟩ := rfl

/-- Outside a summary block, a line goes to `pbKeyValue`. -/
theorem pbLine_keyvalue (v : Option String) (c : Option DateTimeUtc)
    (su : Option String) (sl : List (List Char)) (l : List Char) :
    pbLine ⟨v, c, su, false, sl⟩ l = pbKeyValue ⟨v, c, su, false, sl⟩ l :=
  rfl

/-- Inside a summary block, a two-space-indented line is collected with
the indent stripped. -/
theorem pbLine_indent (v : Option String) (c : Option DateTimeUtc)
    (su : Option String) (sl : List (List Char)) (l : List Char) :
    pbLine ⟨v, c, su, true, sl⟩ (' ' :: ' ' :: l) =
      .ok ⟨v, c, su, true, sl ++ [l]⟩ := by
  unfold pbLine
  rw [if_pos (show (⟨v, c, su, true, sl⟩ : PBAcc).inSummary = true from
    rfl)]
  rw [show dropPre? "  ".data (' ' :: ' ' :: l) = some l from by
    simp [dropPre?]]

/-- A clean first step of the parser line loop. -/
theorem parseBaselineLines_cons_ok (l : List Char) (ls : List (List Char))
    (st st2 : PBAcc) (h : pbLine st l = .ok st2) :
    parseBaselineLines (l :: ls) st = parseBaselineLines ls st2 := by
  show (match pbLine st l with
    | Except.error e => Except.error e
    | Except.ok s => parseBaselineLines ls s) = parseBaselineLines ls st2
  rw [h]

/-- Running the parser over an indented block collects the lines. -/
theorem parseBaselineLines_indent_block :
    ∀ (lines : List (List Char)) (v : Option String)
      (c : Option DateTimeUtc) (su : Option String)
      (sl : List (List Char)),
    parseBaselineLines (lines.map (fun l => ' ' :: ' ' :: l))
      ⟨v, c, su, true, sl⟩ = .ok ⟨v, c, su, true, sl ++ lines⟩ := by
  intro lines
  induction lines with
  | nil => intro v c su sl; simp [parseBaselineLines]
  | cons l ls ih =>
    intro v c su sl
    rw [List.map_cons,
      parseBaselineLines_cons_ok _ _ _ _ (pbLine_indent v c su sl l),
      ih v c su (sl ++ [l])]
    simp [List.append_assoc]

/-- Closing an open, nonempty summary block commits the joined summary. -/
theorem pbClose_block (v : Option String) (c : Option DateTimeUtc)
    (sl : List (List Char)) (hsl : sl ≠ []) :
    pbClose ⟨v, c, none, true, sl⟩ =
      ⟨v, c, some (joinSummary sl), true, sl⟩ := by
  unfold pbClose
  rw [if_pos (⟨rfl, hsl⟩ :
    (⟨v, c, none, true, sl⟩ : PBAcc).inSummary = true ∧ sl ≠ [])]

/-- With no open summary block the state passes through unchanged. -/
theorem pbClose_plain (v : Option String) (c : Option DateTimeUtc)
    (su : Option String) (sl : List (List Char)) :
    pbClose ⟨v, c, su, false, sl⟩ = ⟨v, c, su, false, sl⟩ := by
  unfold pbClose
  rw [if_neg]
  rintro ⟨h1, _⟩
  exact Bool.false_ne_true h1

/-- Finishing a state with both fields and an open nonempty block. -/
theorem pbFinish_block (v : String) (c : DateTimeUtc)
    (sl : List (List Char)) (hsl : sl ≠ []) :
    pbFinish ⟨some v, some c, none, true, sl⟩ =
      .ok ⟨v, c, some (joinSummary sl)⟩ := by
  unfold pbFinish
  rw [pbClose_block (some v) (some c) sl hsl]

/-- Finishing a plain state with both fields present. -/
theorem pbFinish_plain (v : String) (c : DateTimeUtc) (su : Option String)
    (sl : List (List Char)) :
    pbFinish ⟨some v, some c, su, false, sl⟩ = .ok ⟨v, c, su⟩ := by
  unfold pbFinish
  rw [pbClose_plain (some v) (some c) su sl]

/-- C9 (amended): writing a baseline and parsing it back restores it,
for every baseline whose version has no newline and no whitespace at
either end, whose created timestamp is a valid calendar time with a
four-digit year, and whose summary, if present, is nonempty, free of
carriage returns and has no trailing whitespace; line breaks inside a
multi-line summary are reproduced exactly.  (The claim as frozen
quantifies over *every* baseline; an empty summary string is written as
a bare `summary: |` header and reads back as *no* summary - see the
counterexample.) -/
theorem write_parse_baseline (b : Baseline)
    (hv : trimL b.version.data = b.version.data)
    (hvnl : '\n' ∉ b.version.data)
    (hc : validDT b.created = true)
    (hs : ∀ s, b.summary = some s →
      s.data ≠ [] ∧ '\r' ∉ s.data ∧ trimEndL s.data = s.data) :
    parse_baseline (write_baseline b) = .ok b := by
  obtain ⟨ver, created, summary⟩ := b
  replace hv : trimL ver.data = ver.data := hv
  replace hvnl : '\n' ∉ ver.data := hvnl
  replace hc : validDT created = true := hc
  have hline1 : ("version: " ++ ver).data =
      "version:".data ++ (' ' :: ver.data) := by
    rw [String.data_append]
    rfl
  have hline2 : ("created: " ++ rfc3339Render created).data =
      "created:".data ++ (' ' :: (rfc3339Render created).data) := by
    rw [String.data_append]
    rfl
  have hnl1 : '\n' ∉ ("version: " ++ ver).data := by
    rw [String.data_append]
    intro hmem
    rcases List.mem_append.mp hmem with hmem | hmem
    · exact absurd hmem (by decide)
    · exact hvnl hmem
  have hnl2 : '\n' ∉ ("created: " ++ rfc3339Render created).data := by
    rw [String.data_append]
    intro hmem
    rcases List.mem_append.mp hmem with hmem | hmem
    · exact absurd hmem (by decide)
    · exact nl_notin_render created hmem
  have hcr1 : stripCR ("version: " ++ ver).data =
      ("version: " ++ ver).data := by
    apply stripCR_eq_self
    rw [String.data_append]
    cases hverd : ver.data with
    | nil => decide
    | cons x xs =>
      rw [getLast?_append_right _ _ (by simp)]
      intro hcontra
      have := trimL_fix_getLast ver.data hv '\r'
        (by rw [hverd]; exact hcontra)
      exact absurd this (by decide)
  have hcr2 : stripCR ("created: " ++ rfc3339Render created).data =
      ("created: " ++ rfc3339Render created).data := by
    apply stripCR_eq_self
    rw [String.data_append,
      getLast?_append_right _ _ (render_ne_nil created),
      render_getLast created]
    decide
  have hstep1 : pbLine (⟨none, none, none, false, []⟩ : PBAcc)
      ("version: " ++ ver).data =
      .ok ⟨some ver, none, none, false, []⟩ := by
    rw [hline1, pbLine_keyvalue, pbKeyValue_version, hv, data_mk_eq]
  have hstep2 : pbLine (⟨some ver, none, none, false, []⟩ : PBAcc)
      ("created: " ++ rfc3339Render created).data =
      .ok ⟨some ver, some created, none, false, []⟩ := by
    rw [hline2, pbLine_keyvalue, pbKeyValue_created _ _ _ _ _ created hc]
  cases summary with
  | none =>
    show (match parseBaselineLines
        (rustLines (write_baseline ⟨ver, created, none⟩).data)
        ⟨none, none, none, false, []⟩ with
      | Except.error e => Except.error e
      | Except.ok st => pbFinish st) = Except.ok ⟨ver, created, none⟩
    rw [show (write_baseline ⟨ver, created, none⟩).data =
      joinLines [("version: " ++ ver).data,
        ("created: " ++ rfc3339Render created).data] from rfl]
    rw [rustLines_joinLines _ (by
      intro l hl
      rcases List.mem_cons.mp hl with rfl | hl
      · exact hnl1
      · rcases List.mem_singleton.mp hl with rfl
        exact hnl2)]
    rw [List.map_cons, List.map_cons, List.map_nil, hcr1, hcr2]
    rw [parseBaselineLines_cons_ok _ _ _ _ hstep1,
      parseBaselineLines_cons_ok _ _ _ _ hstep2]
    show pbFinish ⟨some ver, some created, none, false, []⟩ = _
    rw [pbFinish_plain]
  | some s =>
    obtain ⟨hs1, hs2, hs3⟩ := hs s rfl
    have hsl : rustLines s.data = splitNL s.data :=
      rustLines_of_clean s.data hs1 (trimEndL_fix_getLast s.data hs3) hs2
    have hpieces : ∀ p ∈ rustLines s.data, '\r' ∉ p := by
      intro p hp hmem
      rw [hsl] at hp
      exact hs2 (splitOnChar_pieces_subset '\n' s.data p hp '\r' hmem)
    have hnl3 : ∀ l2 ∈ (rustLines s.data).map (fun l => ' ' :: ' ' :: l),
        '\n' ∉ l2 := by
      intro l2 hl2 hmem
      obtain ⟨p, hp, hfp⟩ := List.mem_map.mp hl2
      rw [← hfp] at hmem
      rcases List.mem_cons.mp hmem with hx | hmem
      · exact absurd hx (by decide)
      · rcases List.mem_cons.mp hmem with hx | hmem
        · exact absurd hx (by decide)
        · rw [hsl] at hp
          exact splitOnChar_pieces_no_sep '\n' s.data p hp hmem
    have hcr3 : ∀ l2 ∈ (rustLines s.data).map (fun l => ' ' :: ' ' :: l),
        stripCR l2 = l2 := by
      intro l2 hl2
      obtain ⟨p, hp, hfp⟩ := List.mem_map.mp hl2
      rw [← hfp]
      apply stripCR_eq_self
      cases hpd : p with
      | nil => decide
      | cons x xs =>
        rw [show (' ' :: ' ' :: x :: xs) = [' ', ' '] ++ (x :: xs) from rfl,
          getLast?_append_right _ _ (by simp)]
        intro hcontra
        exact hpieces p hp (by
          rw [hpd]
          exact getLast?_mem _ _ hcontra)
    have hstep3 : pbLine (⟨some ver, some created, none, false, []⟩ : PBAcc)
        "summary: |".data =
        .ok ⟨some ver, some created, none, true, []⟩ := by
      rw [pbLine_keyvalue, pbKeyValue_summary_bar]
    show (match parseBaselineLines
        (rustLines (write_baseline ⟨ver, created, some s⟩).data)
        ⟨none, none, none, false, []⟩ with
      | Except.error e => Except.error e
      | Except.ok st => pbFinish st) = Except.ok ⟨ver, created, some s⟩
    rw [show (write_baseline ⟨ver, created, some s⟩).data =
      joinLines (("version: " ++ ver).data ::
        ("created: " ++ rfc3339Render created).data ::
        "summary: |".data ::
        (rustLines s.data).map (fun l => ' ' :: ' ' :: l)) from rfl]
    rw [rustLines_joinLines _ (by
      intro l hl
      rcases List.mem_cons.mp hl with rfl | hl
      · exact hnl1
      · rcases List.mem_cons.mp hl with rfl | hl
        · exact hnl2
        · rcases List.mem_cons.mp hl with rfl | hl
          · decide
          · exact hnl3 l hl)]
    rw [List.map_cons, List.map_cons, List.map_cons, hcr1, hcr2,
      show stripCR "summary: |".data = "summary: |".data from by decide,
      map_eq_self_of stripCR _ hcr3]
    rw [parseBaselineLines_cons_ok _ _ _ _ hstep1,
      parseBaselineLines_cons_ok _ _ _ _ hstep2,
      parseBaselineLines_cons_ok _ _ _ _ hstep3,
      parseBaselineLines_indent_block (rustLines s.data) (some ver)
        (some created) none []]
    show pbFinish ⟨some ver, some created, none, true,
      [] ++ rustLines s.data⟩ = _
    rw [List.nil_append, pbFinish_block ver created (rustLines s.data)
      (by rw [hsl]; exact splitOnChar_ne_nil '\n' s.data)]
    rw [show joinSummary (rustLines s.data) =
      String.mk (trimEndL (interNL (rustLines s.data))) from rfl,
      hsl, interNL_splitNL, hs3, data_mk_eq]

/-- C9 witness: a concrete baseline with a two-line summary survives
the write/parse round trip exactly. -/
theorem write_parse_baseline_witness :
    parse_baseline (write_baseline
      ⟨"00001", dt2024, some "line one\nline two"⟩) =
      .ok ⟨"00001", dt2024, some "line one\nline two"⟩ :=
  write_parse_baseline ⟨"00001", dt2024, some "line one\nline two"⟩
    (by decide) (by decide) (by decide)
    (fun s h => by
      cases h
      exact ⟨by decide, by decide, by decide⟩)

/-- C9 counterexample: a baseline whose summary is the *empty* string
does not round-trip - `write_baseline` emits a bare `summary: |` header
whose block collects no lines, so `parse_baseline` returns a baseline
with no summary at all, which is a different `Baseline` value. -/
theorem write_parse_baseline_cx :
    parse_baseline (write_baseline ⟨"00001", dt2024, some ""⟩) =
      .ok ⟨"00001", dt2024, none⟩ ∧
    (⟨"00001", dt2024, none⟩ : Baseline) ≠ ⟨"00001", dt2024, some ""⟩ := by
  decide

/-- The spec-modelled three-argument pending computation satisfies the
claimed characterisation: a migration is pending exactly when its id is
absent from the applied records and, if a baseline version exists, its
version is lexicographically above it (supporting fact for the pending
claim; the two-argument `get_pending` in src/state.rs has no baseline
filtering at all). -/
theorem get_pending_spec_mem (available : List Migration)
    (applied : List AppliedMigration) (bv : Option String)
    (m : Migration) :
    m ∈ get_pending_spec available applied bv ↔
      m ∈ available ∧ (∀ a ∈ applied, a.id ≠ m.id) ∧
      (∀ v, bv = some v → v < m.version) := by
  unfold get_pending_spec
  rw [List.mem_filter]
  constructor
  · rintro ⟨hmem, hf⟩
    simp only [Bool.and_eq_true, Bool.not_eq_true'] at hf
    obtain ⟨h1, h2⟩ := hf
    refine ⟨hmem, ?_, ?_⟩
    · intro a ha hcontra
      have : applied.any (fun a => a.id == m.id) = true :=
        List.any_eq_true.mpr ⟨a, ha, by simp [hcontra]⟩
      rw [h1] at this
      exact Bool.false_ne_true this
    · intro v hv
      subst hv
      rw [String.lt_iff_toList_lt]
      simpa using h2
  · rintro ⟨hmem, hids, hbv⟩
    refine ⟨hmem, ?_⟩
    simp only [Bool.and_eq_true, Bool.not_eq_true']
    refine ⟨?_, ?_⟩
    · cases hcase : applied.any (fun a => a.id == m.id) with
      | false => rfl
      | true =>
        obtain ⟨a, ha, hid⟩ := List.any_eq_true.mp hcase
        exact absurd (by simpa using hid) (hids a ha)
    · cases bv with
      | none => rfl
      | some v =>
        have := hbv v rfl
        rw [String.lt_iff_toList_lt] at this
        simpa using this
